import Mathlib

/-!
# Verification of the character decomposition graph and similarity search

This file gives a shallow embedding of `radicals.py`: the decomposition
graph builder (`load_from_json`), the bounded similarity search
(`characters_within`), and the whole-graph enumeration
(`enumerate_sorted`), together with theorems checking the specified
properties against these definitions.

Modelling conventions:

* JSON scalar values appearing in the raw table (stroke counts,
  composition types, component references) are modelled by `RVal`
  (a number, a string, or null).  Python dictionary keys are modelled
  by `RVal` as well; the characters that key the table are strings.
* Python `dict`s are modelled as insertion-ordered association lists
  with unique keys; Python `set`s are modelled as lists where insertion
  appends a missing element (membership is what matters for every
  property below).
* All costs are modelled in integer hundredths of the Python float
  unit: `COST_DIFFERENT_RADICAL = 100`, `COST_DIFFERENT_SIDE = 50`,
  `COST_DIFFERENT_COMPOSITION = 25`, `COST_DIFFERENT_STROKES = 1`.
  Every distance the Python code manipulates is a sum of these
  constants, hence an exact multiple of 1/100; a run with threshold
  `max_distance` behaves exactly like the run with threshold
  `⌊100 · max_distance⌋` hundredths, so `ℕ`-valued thresholds lose no
  behaviour.
* The generator `characters_within` is modelled as a function returning
  the list of yielded pairs after the sequence has been fully consumed,
  together with the final contents of the `exclusions` set.  Recursion
  is driven by an explicit fuel parameter; `fuel_sufficient` below
  proves that the fuel chosen by the wrapper is enough (the code's own
  termination argument: each recursive call strictly increases the
  accumulated distance by `COST_DIFFERENT_RADICAL` and recursion is
  refused beyond `max_distance`).
-/

/-- A scalar JSON value as stored in `rads.json`: a number, a string or
null.  Python truthiness and equality on these values are modelled by
`rval_falsy` and decidable equality. -/
inductive RVal where
  | nat : Nat → RVal
  | str : String → RVal
  | null : RVal
deriving DecidableEq, Repr

/-- Python truthiness of a scalar: `None`, `0` and `""` are falsy. -/
def rval_falsy : RVal → Bool
  | RVal.nat n => n == 0
  | RVal.str s => s == ""
  | RVal.null => true

/-- Numeric value of a scalar, used where the code does arithmetic on a
stroke count (the data files store numbers there). -/
def rval_nat : RVal → Nat
  | RVal.nat n => n
  | _ => 0

/-- One node of the decomposition graph: the list
`[[composition_type, left, right] | None, descendants_left,
descendants_right, num_strokes]` kept in the `radicals` dict. -/
structure Node where
  parent : Option (RVal × RVal × RVal)
  descL : List RVal
  descR : List RVal
  strokes : RVal
deriving DecidableEq, Repr

/-- The master dict mapping characters to their nodes, in insertion
order. -/
abbrev Store := List (RVal × Node)

/-- Dictionary lookup (`radicals[char]`), `none` when the key is absent
(a Python `KeyError`). -/
def lookupStore : Store → RVal → Option Node
  | [], _ => none
  | p :: rest, k => if p.1 = k then some p.2 else lookupStore rest k

/-- The node for a key, defaulting to an inert placeholder; the default
is never consulted on the stores the code builds (see the builder
invariants below). -/
def getNode (st : Store) (k : RVal) : Node :=
  (lookupStore st k).getD ⟨none, [], [], RVal.nat 0⟩

/-- `k in radicals`. -/
def storeHasKey (st : Store) (k : RVal) : Bool :=
  (lookupStore st k).isSome

/-- Python `set.add`: append the element if it is not already present. -/
def listAddNew (l : List RVal) (v : RVal) : List RVal :=
  if l.contains v then l else l ++ [v]

/-- Update the node stored under a key. -/
def updateNode (st : Store) (k : RVal) (f : Node → Node) : Store :=
  st.map (fun p => if p.1 = k then (p.1, f p.2) else p)

/-- `make_dummy`: the placeholder node `[None, set(), set(), 0]`. -/
def dummyNode : Node := ⟨none, [], [], RVal.nat 0⟩

/-- `radicals[char][NUM_STROKES_INDEX] = num_strokes`. -/
def setStrokes (st : Store) (k : RVal) (ns : RVal) : Store :=
  updateNode st k (fun n => { n with strokes := ns })

/-- `radicals[char][PARENT_INDEX] = [composition_type, left, right]`. -/
def setParent (st : Store) (k : RVal) (p : RVal × RVal × RVal) : Store :=
  updateNode st k (fun n => { n with parent := some p })

/-- `radicals[left][DESCENDANT_LEFT_INDEX].add(char)`. -/
def addDescL (st : Store) (k : RVal) (c : RVal) : Store :=
  updateNode st k (fun n => { n with descL := listAddNew n.descL c })

/-- `radicals[right][DESCENDANT_RIGHT_INDEX].add(char)`. -/
def addDescR (st : Store) (k : RVal) (c : RVal) : Store :=
  updateNode st k (fun n => { n with descR := listAddNew n.descR c })

/-- Ensure a node exists for a key (`if k not in radicals: make_dummy(k)`). -/
def ensureNode (st : Store) (k : RVal) : Store :=
  if storeHasKey st k then st else st ++ [(k, dummyNode)]

/-- The length check and `data.append(None)` padding performed on a raw
entry before destructuring: fewer than three fields is a fatal error, a
three-field entry is extended in place with `None`. -/
def padEntry (data : List RVal) : Except String (List RVal) :=
  if data.length < 4 then
    if data.length < 3 then
      Except.error "radical data list somehow didn't at least 3 entries"
    else Except.ok (data ++ [RVal.null])
  else Except.ok data

/-- Processing of one raw entry by `load_from_json`.  Returns the
updated store together with the entry's data list as it stands after
the call (it may have been padded in place).  The destructuring
`[num_strokes, composition_type, left, right] = data` fails on any
list that does not have exactly four fields. -/
def loadEntry (st : Store) (char : String) (data : List RVal) :
    Except String (Store × List RVal) :=
  match padEntry data with
  | Except.error e => Except.error e
  | Except.ok d =>
    match d with
    | [ns, ct, l, r] =>
      let left := if l = RVal.str char then RVal.null else l
      let st1 := ensureNode st (RVal.str char)
      let st2 := setStrokes st1 (RVal.str char) ns
      if rval_falsy left || rval_falsy r then Except.ok (st2, d)
      else
        let st3 := ensureNode st2 left
        let st4 := ensureNode st3 r
        let st5 := setParent st4 (RVal.str char) (ct, left, r)
        let st6 := addDescL st5 left (RVal.str char)
        Except.ok (addDescR st6 r (RVal.str char), d)
    | _ => Except.error "could not destructure radical data list"

/-- The builder's fold over the raw table, accumulating the store and
the raw table as left behind after the call. -/
def loadFromJsonGo : List (String × List RVal) → Store →
    List (String × List RVal) → Except String (Store × List (String × List RVal))
  | [], st, rawAcc => Except.ok (st, rawAcc)
  | (c, d) :: rest, st, rawAcc =>
    match loadEntry st c d with
    | Except.error e => Except.error e
    | Except.ok (st', d') => loadFromJsonGo rest st' (rawAcc ++ [(c, d')])

/-- `load_from_json`: build the decomposition graph from the raw table
(the parsed `rads.json` mapping).  On success it returns the store and
the raw table as it stands after the call. -/
def load_from_json (raw : List (String × List RVal)) :
    Except String (Store × List (String × List RVal)) :=
  loadFromJsonGo raw [] []

/-- Just the store produced by a successful build. -/
def builtStore (raw : List (String × List RVal)) : Store :=
  match load_from_json raw with
  | Except.ok (st, _) => st
  | Except.error _ => []

-- cost values for computing distances, in hundredths of the float unit
def COST_DIFFERENT_RADICAL : Nat := 100
def COST_DIFFERENT_SIDE : Nat := 50
def COST_DIFFERENT_COMPOSITION : Nat := 25
def COST_DIFFERENT_STROKES : Nat := 1

/-- The state threaded through the four sibling loops of one
`characters_within` invocation: yielded pairs, the `exclusions` set and
the `next_queue` list. -/
structure SState where
  res : List (RVal × Nat)
  excl : List RVal
  queue : List (RVal × Nat)
deriving Repr

/-- `radicals[descendant][PARENT_INDEX][COMPOSITION_TYPE_INDEX]`; the
default is never consulted on built stores, where every member of a
descendant set has a parent triple. -/
def compTypeOfD (store : Store) (d : RVal) : RVal :=
  ((getNode store d).parent.map (fun t => t.1)).getD RVal.null

/-- The stroke-difference surcharge of `process_descendant`: when
`do_stroke_difference` is set and the stroke counts differ, add
`COST_DIFFERENT_STROKES` per stroke of difference to the base
distance. -/
def strokeCost (store : Store) (sdiff : Bool) (ns : RVal) (d : RVal)
    (base : Nat) : Nat :=
  if sdiff then
    let sd := Nat.dist (rval_nat ns) (rval_nat (getNode store d).strokes)
    if 0 < sd then base + COST_DIFFERENT_STROKES * sd else base
  else base

/-- The composition-type surcharge of `process_descendant`: add
`COST_DIFFERENT_COMPOSITION` when the candidate's composition type
differs from the start character's. -/
def compCost (store : Store) (ct : RVal) (d : RVal) (d1 : Nat) : Nat :=
  if compTypeOfD store d ≠ ct then d1 + COST_DIFFERENT_COMPOSITION else d1

/-- The `process_descendant` closure: skip excluded characters, add the
stroke-difference and composition-type costs to the base distance, skip
the character if the distance now exceeds `max_distance`, otherwise
exclude it, yield it and (when `go_deeper`) queue it. -/
def process_descendant (store : Store) (maxD : Nat) (sdiff : Bool)
    (goDeeper : Bool) (ns : RVal) (ct : RVal) (base : Nat)
    (st : SState) (d : RVal) : SState :=
  if st.excl.contains d then st
  else
    let d2 := compCost store ct d (strokeCost store sdiff ns d base)
    if maxD < d2 then st
    else
      { res := st.res ++ [(d, d2)]
        excl := listAddNew st.excl d
        queue := if goDeeper then st.queue ++ [(d, d2)] else st.queue }

/-- One of the four sibling loops: fold `process_descendant` over a
descendant set. -/
def siblingFold (store : Store) (maxD : Nat) (sdiff goDeeper : Bool)
    (ns ct : RVal) (base : Nat) (ds : List RVal) (st : SState) : SState :=
  ds.foldl (process_descendant store maxD sdiff goDeeper ns ct base) st

/-- The four sibling loops of one invocation: characters sharing the
left parent on the left, the right parent on the right, and (when
`do_parent_alternates`) the two opposite-side loops at
`distance + COST_DIFFERENT_SIDE`. -/
def siblingPhases (store : Store) (maxD : Nat) (sdiff alt goDeeper : Bool)
    (ns ct lp rp : RVal) (char : RVal) (excl : List RVal) (dist : Nat) : SState :=
  let st0 : SState := ⟨[], listAddNew excl char, []⟩
  let st1 := siblingFold store maxD sdiff goDeeper ns ct dist (getNode store lp).descL st0
  let st2 := siblingFold store maxD sdiff goDeeper ns ct dist (getNode store rp).descR st1
  if alt then
    let st3 := siblingFold store maxD sdiff goDeeper ns ct
      (dist + COST_DIFFERENT_SIDE) (getNode store lp).descR st2
    siblingFold store maxD sdiff goDeeper ns ct
      (dist + COST_DIFFERENT_SIDE) (getNode store rp).descL st3
  else st2

/-- The `for queued, distance in next_queue` loop: each queued
character gets `COST_DIFFERENT_RADICAL` added to its stored distance
and, if still within bounds, is searched recursively (`rec` is the
search at the next recursion level) with `do_parents=False`. -/
def processQueueLoop (rec : RVal → List RVal → Nat → Bool → Bool →
      List (RVal × Nat) × List RVal) (maxD : Nat) (goDeeper : Bool) :
    List (RVal × Nat) → List RVal → List (RVal × Nat) × List RVal
  | [], excl => ([], excl)
  | (c, q) :: rest, excl =>
    let d := q + COST_DIFFERENT_RADICAL
    if maxD < d then processQueueLoop rec maxD goDeeper rest excl
    else
      let r := rec c excl d false goDeeper
      let r2 := processQueueLoop rec maxD goDeeper rest r.2
      (r.1 ++ r2.1, r2.2)

/-- One invocation of `characters_within` with the next recursion
level abstracted as `rec`: if the start character has no parents yield
nothing; otherwise run the four sibling loops, bump the distance by
`COST_DIFFERENT_RADICAL`, stop if it exceeds `max_distance`, recurse on
the two parents (when `do_parents`) and then on the queued characters. -/
def charactersWithinBody (store : Store) (maxD : Nat) (sdiff alt : Bool)
    (rec : RVal → List RVal → Nat → Bool → Bool → List (RVal × Nat) × List RVal)
    (char : RVal) (excl : List RVal) (dist : Nat) (doParents goDeeper : Bool) :
    List (RVal × Nat) × List RVal :=
  match (getNode store char).parent with
  | none => ([], excl)
  | some (ct, lp, rp) =>
    let st3 := siblingPhases store maxD sdiff alt goDeeper
      (getNode store char).strokes ct lp rp char excl dist
    let dist2 := dist + COST_DIFFERENT_RADICAL
    if maxD < dist2 then (st3.res, st3.excl)
    else
      let pr :=
        if doParents then
          let r1 := rec lp st3.excl dist2 false false
          let r2 := rec rp r1.2 dist2 false false
          (r1.1 ++ r2.1, r2.2)
        else (([] : List (RVal × Nat)), st3.excl)
      let qr := processQueueLoop rec maxD goDeeper st3.queue pr.2
      (st3.res ++ pr.1 ++ qr.1, qr.2)

/-- The body of `characters_within`, with an explicit fuel bounding the
recursion depth (arguments after the fuel: start character, exclusion
set, starting distance, `do_parents`, `go_deeper`).  Returns the fully
consumed sequence of yields and the final exclusion set. -/
def charactersWithinAux (store : Store) (maxD : Nat) (sdiff alt : Bool) :
    Nat → RVal → List RVal → Nat → Bool → Bool →
    List (RVal × Nat) × List RVal
  | 0, _, excl, _, _, _ => ([], excl)
  | fuel + 1, char, excl, dist, doParents, goDeeper =>
    charactersWithinBody store maxD sdiff alt
      (fun c e d p g => charactersWithinAux store maxD sdiff alt fuel c e d p g)
      char excl dist doParents goDeeper

/-- Fuel sufficient for a search whose accumulated distance starts at
`dist`: every recursion level adds at least `COST_DIFFERENT_RADICAL`
and recursion is refused past `maxD`, so depth is bounded by
`(maxD - dist) / COST_DIFFERENT_RADICAL`. -/
def sufficientFuel (maxD dist : Nat) : Nat :=
  (maxD - dist) / COST_DIFFERENT_RADICAL + 1

/-- `characters_within(radicals, char, max_distance, exclusions, ...)`
fully consumed.  The first component is the list of yielded
`[character, distance]` pairs; the second is the caller's `exclusions`
set after the call.  An empty (falsy) caller set is replaced by a fresh
internal set, so in that case the caller's set comes back unchanged. -/
def characters_within (store : Store) (char : RVal) (maxD : Nat)
    (exclusions : List RVal) (sdiff alt doParents goDeeper : Bool) :
    List (RVal × Nat) × List RVal :=
  let r := charactersWithinAux store maxD sdiff alt
    (sufficientFuel maxD COST_DIFFERENT_RADICAL) char exclusions
    COST_DIFFERENT_RADICAL doParents goDeeper
  (r.1, if exclusions.isEmpty then exclusions else r.2)

/-- The top-level search including the `radicals[char]` lookup, which
raises on an unknown start character before anything is mutated: the
error outcome is distinct from an empty result, and the caller's
exclusion set is handed back untouched. -/
def charactersWithinChecked (store : Store) (char : RVal) (maxD : Nat)
    (exclusions : List RVal) (sdiff alt doParents goDeeper : Bool) :
    Except Unit (List (RVal × Nat)) × List RVal :=
  match lookupStore store char with
  | none => (Except.error (), exclusions)
  | some _ =>
    let r := characters_within store char maxD exclusions sdiff alt doParents goDeeper
    (Except.ok r.1, r.2)

/-- `find_roots`: characters with no parents, in table order. -/
def find_roots (store : Store) : List RVal :=
  store.filterMap (fun p => if p.2.parent.isNone then some p.1 else none)

/-- The `stroke_sort` key: stroke count, with zero (special radicals)
sorted last as if infinite. -/
def strokeKey (store : Store) (v : RVal) : Option Nat :=
  let s := (getNode store v).strokes
  if s = RVal.nat 0 then none else some (rval_nat s)

/-- Comparison used by `stroke_sort` (`none` is the infinity). -/
def strokeLe (store : Store) (a b : RVal) : Bool :=
  match strokeKey store a, strokeKey store b with
  | _, none => true
  | none, some _ => false
  | some x, some y => x ≤ y

/-- Stable insertion of an element into a sorted list: it goes after
every element that compares less-or-equal to it. -/
def insertSorted (le : RVal → RVal → Bool) (v : RVal) : List RVal → List RVal
  | [] => [v]
  | a :: t => if le a v then a :: insertSorted le v t else v :: a :: t

/-- `stroke_sort`: stable sort by ascending stroke count, zero-stroke
specials last (a stable insertion sort, which agrees with Python's
stable `sorted` for this total comparison). -/
def stroke_sort (store : Store) (l : List RVal) : List RVal :=
  l.foldl (fun acc v => insertSorted (strokeLe store) v acc) []

/-- Whitelist check; `None` admits everything. -/
def wlContains (wl : Option (List RVal)) (v : RVal) : Bool :=
  match wl with
  | none => true
  | some l => l.contains v

/-- Total number of descendant-set entries in the store (used only to
measure the traversal's termination). -/
def totalDesc (store : Store) : Nat :=
  store.foldr (fun p a => p.2.descL.length + p.2.descR.length + a) 0

/-- Number of store keys not yet seen (used only to measure the
traversal's termination). -/
def unseenKeys (store : Store) (seen : List RVal) : Nat :=
  ((store.map Prod.fst).filter (fun k => !(seen.contains k))).length

/-- The `explore_lr_bfs` dual-queue traversal: drain the left queue,
then the right queue, and repeat; a popped unseen node is marked seen,
its descendants are enqueued sorted by stroke count, and it is yielded
unless special or not whitelisted.  `mode` tells which queue is being
drained.  Returns the yields and the final seen set. -/
def explore_lr_bfs (store : Store) (wl : Option (List RVal)) :
    List RVal → List RVal → List RVal → Bool → List RVal × List RVal
  | seen, v :: lt, rq, true =>
    if v ∈ seen then explore_lr_bfs store wl seen lt rq true
    else
      let n := getNode store v
      let rest := explore_lr_bfs store wl (v :: seen)
        (lt ++ stroke_sort store n.descL) (rq ++ stroke_sort store n.descR) true
      if wlContains wl v && !(rval_falsy n.strokes) then (v :: rest.1, rest.2)
      else rest
  | seen, [], v :: rt, true =>
    if v ∈ seen then explore_lr_bfs store wl seen [] rt false
    else
      let n := getNode store v
      let rest := explore_lr_bfs store wl (v :: seen)
        (stroke_sort store n.descL) (rt ++ stroke_sort store n.descR) false
      if wlContains wl v && !(rval_falsy n.strokes) then (v :: rest.1, rest.2)
      else rest
  | seen, [], [], true => ([], seen)
  | seen, lq, v :: rt, false =>
    if v ∈ seen then explore_lr_bfs store wl seen lq rt false
    else
      let n := getNode store v
      let rest := explore_lr_bfs store wl (v :: seen)
        (lq ++ stroke_sort store n.descL) (rt ++ stroke_sort store n.descR) false
      if wlContains wl v && !(rval_falsy n.strokes) then (v :: rest.1, rest.2)
      else rest
  | seen, v :: lt, [], false =>
    if v ∈ seen then explore_lr_bfs store wl seen lt [] true
    else
      let n := getNode store v
      let rest := explore_lr_bfs store wl (v :: seen)
        (lt ++ stroke_sort store n.descL) (stroke_sort store n.descR) true
      if wlContains wl v && !(rval_falsy n.strokes) then (v :: rest.1, rest.2)
      else rest
  | seen, [], [], false => ([], seen)
termination_by seen lq rq _ =>
  (totalDesc store + 1) * unseenKeys store seen + lq.length + rq.length
decreasing_by
  all_goals simp_wf
  all_goals
  · rename_i hv
    have hins : ∀ (le : RVal → RVal → Bool) (w : RVal) (m : List RVal),
        (insertSorted le w m).length = m.length + 1 := by
      intro le w m
      induction m with
      | nil => rfl
      | cons a t ih =>
        simp only [insertSorted]
        split
        · simp [ih]
        · simp
    have hfold : ∀ (l acc : List RVal),
        (l.foldl (fun acc v => insertSorted (strokeLe store) v acc) acc).length
          = acc.length + l.length := by
      intro l
      induction l with
      | nil => intro acc; simp
      | cons a t ih =>
        intro acc
        simp only [List.foldl_cons, List.length_cons]
        rw [ih, hins]
        omega
    have hsortlen : ∀ l : List RVal, (stroke_sort store l).length = l.length := by
      intro l
      unfold stroke_sort
      rw [hfold]
      simp
    rw [hsortlen, hsortlen]
    have hmono : unseenKeys store (v :: seen) ≤ unseenKeys store seen := by
      unfold unseenKeys
      refine List.Sublist.length_le (List.monotone_filter_right _ ?_)
      intro k h
      cases hc : seen.contains k
      · simp
      · simp only [List.contains_cons, hc, Bool.or_true, Bool.not_true] at h
        exact Bool.noConfusion h
    have hkb : ∀ st : Store, ∀ k nd, lookupStore st k = some nd →
        k ∈ st.map Prod.fst ∧ nd.descL.length + nd.descR.length ≤ totalDesc st := by
      intro st
      induction st with
      | nil => intro k nd h; simp [lookupStore] at h
      | cons p rest ih =>
        intro k nd h
        have htd : totalDesc (p :: rest)
            = p.2.descL.length + p.2.descR.length + totalDesc rest := rfl
        rw [lookupStore] at h
        by_cases hp : p.1 = k
        · simp only [hp, if_pos rfl] at h
          cases h
          exact ⟨by simp [← hp], by omega⟩
        · simp only [if_neg hp] at h
          obtain ⟨h1, h2⟩ := ih k nd h
          exact ⟨by simp [h1], by omega⟩
    cases hlk : lookupStore store v with
    | none =>
      have hg : getNode store v = dummyNode := by rw [getNode, hlk]; rfl
      have hm2 := Nat.mul_le_mul_left (totalDesc store + 1) hmono
      rw [hg]
      simp only [dummyNode, List.length_nil]
      omega
    | some nd =>
      obtain ⟨hk, hb⟩ := hkb store v nd hlk
      have hg : getNode store v = nd := by rw [getNode, hlk]; rfl
      have hstrict : unseenKeys store (v :: seen) < unseenKeys store seen := by
        unfold unseenKeys
        have h1 : (store.map Prod.fst).filter (fun k => !((v :: seen).contains k))
            = ((store.map Prod.fst).filter (fun k => !(seen.contains k))).filter
                (fun k => !(k == v)) := by
          rw [List.filter_filter]
          refine List.filter_congr ?_
          intro k _
          simp only [List.contains_cons, Bool.not_or, Bool.and_comm]
        rw [h1]
        have hvm : v ∈ (store.map Prod.fst).filter (fun k => !(seen.contains k)) := by
          refine List.mem_filter.mpr ⟨hk, ?_⟩
          simp [hv]
        have hf : ∀ m : List RVal, v ∈ m →
            (m.filter (fun k => !(k == v))).length < m.length := by
          intro m hm
          induction m with
          | nil => cases hm
          | cons a t ih =>
            by_cases hav : a = v
            · subst hav
              have h1 : List.filter (fun k => !(k == a)) (a :: t)
                  = List.filter (fun k => !(k == a)) t := by simp
              rw [h1]
              exact Nat.lt_succ_of_le (List.length_filter_le _ t)
            · have h1 : List.filter (fun k => !(k == v)) (a :: t)
                  = a :: List.filter (fun k => !(k == v)) t := by simp [hav]
              rw [h1]
              have hm' : v ∈ t := by
                cases List.mem_cons.mp hm with
                | inl h => exact absurd h.symm hav
                | inr h => exact h
              exact Nat.succ_lt_succ (ih hm')
        exact hf _ hvm
      have hm3 : (totalDesc store + 1) * unseenKeys store (v :: seen)
          + (totalDesc store + 1)
          ≤ (totalDesc store + 1) * unseenKeys store seen := by
        have h2 := Nat.mul_le_mul_left (totalDesc store + 1) (Nat.succ_le_of_lt hstrict)
        rw [Nat.mul_succ] at h2
        exact h2
      rw [hg]
      omega

/-- One iteration of the loop over roots in `enumerate_sorted`: run the
traversal from root `r` with the shared seen set, append its yields. -/
def enumStep (store : Store) (wl : Option (List RVal))
    (acc : List RVal × List RVal) (r : RVal) : List RVal × List RVal :=
  let e := explore_lr_bfs store wl acc.2 [r] [r] true
  (acc.1 ++ e.1, e.2)

/-- `enumerate_sorted`, also returning the final seen set: descend from
each root (sorted by stroke count) in turn, sharing one seen set. -/
def enumerateSortedFull (store : Store) (wl : Option (List RVal)) :
    List RVal × List RVal :=
  (stroke_sort store (find_roots store)).foldl (enumStep store wl) ([], [])

/-- `enumerate_sorted`: the yielded characters. -/
def enumerate_sorted (store : Store) (wl : Option (List RVal)) : List RVal :=
  (enumerateSortedFull store wl).1

/-- Reachability from a root through the descendant edges the traversal
follows. -/
inductive ReachesRoot (store : Store) : RVal → Prop where
  | root (r : RVal) : r ∈ find_roots store → ReachesRoot store r
  | stepL (u v : RVal) : ReachesRoot store u → v ∈ (getNode store u).descL →
      ReachesRoot store v
  | stepR (u v : RVal) : ReachesRoot store u → v ∈ (getNode store u).descR →
      ReachesRoot store v

/-- What one traversal run guarantees: the final seen set extends the
initial one and absorbs both queues; every yield is new, marked,
whitelisted and non-special; yields are distinct; nodes marked during
the run have their descendants marked; distinctness of the seen set is
preserved; and every node marked during the run that passes the
whitelist and is not special is yielded. -/
def ExploreSpec (store : Store) (wl : Option (List RVal))
    (seen lq rq : List RVal) (mode : Bool) : Prop :=
  let r := explore_lr_bfs store wl seen lq rq mode
  (∀ x ∈ seen, x ∈ r.2) ∧
  (∀ x ∈ lq, x ∈ r.2) ∧
  (∀ x ∈ rq, x ∈ r.2) ∧
  (∀ y ∈ r.1, y ∉ seen ∧ y ∈ r.2 ∧ wlContains wl y = true ∧
    rval_falsy (getNode store y).strokes = false) ∧
  r.1.Nodup ∧
  (∀ x ∈ r.2, x ∈ seen ∨
    ((∀ c ∈ (getNode store x).descL, c ∈ r.2) ∧
     (∀ c ∈ (getNode store x).descR, c ∈ r.2))) ∧
  (seen.Nodup → r.2.Nodup) ∧
  (∀ x ∈ r.2, x ∉ seen → wlContains wl x = true →
    rval_falsy (getNode store x).strokes = false → x ∈ r.1)

/-- Invariant of the fold over roots in `enumerate_sorted`: yields are
distinct, marked, whitelisted and non-special; the seen set is distinct
and closed under descendants; every marked node passing the whitelist
that is not special has been yielded. -/
def EnumInv (store : Store) (wl : Option (List RVal))
    (acc : List RVal × List RVal) : Prop :=
  acc.1.Nodup ∧
  (∀ y ∈ acc.1, y ∈ acc.2 ∧ wlContains wl y = true ∧
    rval_falsy (getNode store y).strokes = false) ∧
  acc.2.Nodup ∧
  (∀ x ∈ acc.2,
    (∀ c ∈ (getNode store x).descL, c ∈ acc.2) ∧
    (∀ c ∈ (getNode store x).descR, c ∈ acc.2)) ∧
  (∀ x ∈ acc.2, wlContains wl x = true →
    rval_falsy (getNode store x).strokes = false → x ∈ acc.1)

/-- A two-character raw table: `hao` decomposes as `nv` + `zi`, `ru` as
`nv` + `kou` (the spec's concrete scenario, ASCII-romanised). -/
def rawHao : List (String × List RVal) :=
  [("hao", [RVal.nat 6, RVal.str "LR", RVal.str "nv", RVal.str "zi"]),
   ("ru",  [RVal.nat 6, RVal.str "LR", RVal.str "nv", RVal.str "kou"])]

/-- The store built from `rawHao`. -/
def storeHao : Store := builtStore rawHao

/-- A raw table whose built store shows that enabling parent-sibling
expansion can suppress a result: `X = L + R`, `S = L + Q`, `L = M + Q`. -/
def rawPS : List (String × List RVal) :=
  [("X", [RVal.nat 1, RVal.str "a", RVal.str "L", RVal.str "R"]),
   ("S", [RVal.nat 1, RVal.str "a", RVal.str "L", RVal.str "Q"]),
   ("L", [RVal.nat 1, RVal.str "a", RVal.str "M", RVal.str "Q"])]

/-- The store built from `rawPS`. -/
def storePS : Store := builtStore rawPS

/-- A raw table whose built store is a two-element parent cycle with no
roots: `a = b + b` and `b = a + a`. -/
def rawCyc : List (String × List RVal) :=
  [("a", [RVal.nat 1, RVal.str "t", RVal.str "b", RVal.str "b"]),
   ("b", [RVal.nat 1, RVal.str "t", RVal.str "a", RVal.str "a"])]

/-- The store built from `rawCyc`. -/
def storeCyc : Store := builtStore rawCyc

/-! ## Lemmas about sets, descendant processing and the sibling loops -/

theorem mem_listAddNew_self (l : List RVal) (v : RVal) : v ∈ listAddNew l v := by
  unfold listAddNew
  by_cases h : l.contains v
  · rw [if_pos h]
    exact List.mem_of_elem_eq_true h
  · rw [if_neg h]
    exact List.mem_append_right l (List.mem_singleton.mpr rfl)

theorem mem_listAddNew_of_mem (l : List RVal) (v x : RVal) (hx : x ∈ l) :
    x ∈ listAddNew l v := by
  unfold listAddNew
  by_cases h : l.contains v
  · rw [if_pos h]; exact hx
  · rw [if_neg h]; exact List.mem_append_left _ hx

theorem listAddNew_ne_nil (l : List RVal) (v : RVal) : listAddNew l v ≠ [] := by
  intro h
  exact (List.ne_nil_of_mem (mem_listAddNew_self l v)) h

theorem strokeCost_le (store : Store) (sdiff : Bool) (ns d : RVal) (base : Nat) :
    base ≤ strokeCost store sdiff ns d base := by
  unfold strokeCost
  split
  · simp only []
    split
    · omega
    · omega
  · omega

theorem compCost_le (store : Store) (ct d : RVal) (d1 : Nat) :
    d1 ≤ compCost store ct d d1 := by
  unfold compCost
  split
  · omega
  · omega

/-- Case analysis for `process_descendant`: either the candidate is
skipped and the state is unchanged, or it is yielded at a distance
between the base distance and `max_distance`, excluded, and queued when
`go_deeper` is set. -/
theorem process_descendant_cases (store : Store) (maxD : Nat) (sdiff gd : Bool)
    (ns ct : RVal) (base : Nat) (st : SState) (d : RVal) :
    process_descendant store maxD sdiff gd ns ct base st d = st ∨
    ∃ d2, base ≤ d2 ∧ d2 ≤ maxD ∧
      process_descendant store maxD sdiff gd ns ct base st d =
        ⟨st.res ++ [(d, d2)], listAddNew st.excl d,
          if gd then st.queue ++ [(d, d2)] else st.queue⟩ := by
  unfold process_descendant
  by_cases h1 : st.excl.contains d
  · left
    rw [if_pos h1]
  · rw [if_neg h1]
    simp only []
    by_cases h2 : maxD < compCost store ct d (strokeCost store sdiff ns d base)
    · left
      rw [if_pos h2]
    · right
      refine ⟨compCost store ct d (strokeCost store sdiff ns d base),
        le_trans (strokeCost_le store sdiff ns d base) (compCost_le store ct d _),
        by omega, ?_⟩
      rw [if_neg h2]

/-- Behaviour of one sibling loop: the exclusion set only grows, the
yields of the loop are appended to the incoming ones, each new yield is
within bounds and lands in the final exclusion set, and the queue grows
by entries within the same bounds (not at all when `go_deeper` is
unset). -/
theorem siblingFold_spec (store : Store) (maxD : Nat) (sdiff gd : Bool)
    (ns ct : RVal) (base : Nat) (ds : List RVal) : ∀ st : SState,
    (∀ x ∈ st.excl, x ∈ (siblingFold store maxD sdiff gd ns ct base ds st).excl) ∧
    (∃ rt, (siblingFold store maxD sdiff gd ns ct base ds st).res = st.res ++ rt ∧
      ∀ p ∈ rt, base ≤ p.2 ∧ p.2 ≤ maxD ∧
        p.1 ∈ (siblingFold store maxD sdiff gd ns ct base ds st).excl) ∧
    (∃ qt, (siblingFold store maxD sdiff gd ns ct base ds st).queue = st.queue ++ qt ∧
      (∀ p ∈ qt, base ≤ p.2 ∧ p.2 ≤ maxD) ∧ (gd = false → qt = [])) := by
  induction ds with
  | nil =>
    intro st
    refine ⟨fun x hx => hx, ⟨[], by simp [siblingFold], by simp⟩,
      ⟨[], by simp [siblingFold], by simp⟩⟩
  | cons d ds ih =>
    intro st
    have hstep : siblingFold store maxD sdiff gd ns ct base (d :: ds) st
        = siblingFold store maxD sdiff gd ns ct base ds
            (process_descendant store maxD sdiff gd ns ct base st d) := rfl
    rcases process_descendant_cases store maxD sdiff gd ns ct base st d with hc | hc
    · rw [hstep, hc]
      exact ih st
    · obtain ⟨d2, hb, hm, heq⟩ := hc
      rw [hstep, heq]
      obtain ⟨ihe, ⟨rt, hrt, hrtp⟩, ⟨qt, hqt, hqtp, hqtg⟩⟩ :=
        ih ⟨st.res ++ [(d, d2)], listAddNew st.excl d,
          if gd then st.queue ++ [(d, d2)] else st.queue⟩
      refine ⟨?_, ⟨(d, d2) :: rt, ?_, ?_⟩, ?_⟩
      · intro x hx
        exact ihe x (mem_listAddNew_of_mem _ _ _ hx)
      · simpa using hrt
      · intro p hp
        rcases List.mem_cons.mp hp with hp1 | hp2
        · subst hp1
          exact ⟨hb, hm, ihe d (mem_listAddNew_self _ _)⟩
        · exact hrtp p hp2
      · cases gd with
        | false =>
          simp only [if_neg (by simp : ¬(false = true))] at hqt
          exact ⟨qt, hqt, hqtp, hqtg⟩
        | true =>
          simp only [if_pos rfl] at hqt
          refine ⟨(d, d2) :: qt, by simpa using hqt, ?_, by simp⟩
          intro p hp
          rcases List.mem_cons.mp hp with hp1 | hp2
          · subst hp1; exact ⟨hb, hm⟩
          · exact hqtp p hp2

/-- Behaviour of the four sibling loops together (stated against an
abbreviated name `S` for the resulting state): the caller's exclusions
and the start character are in the final exclusion set, every yield is
between the base distance and `max_distance` and lands in the exclusion
set, every queue entry is within the same bounds, and nothing is queued
unless `go_deeper` is set. -/
theorem siblingPhases_spec (store : Store) (maxD : Nat) (sdiff alt gd : Bool)
    (ns ct lp rp char : RVal) (excl : List RVal) (dist : Nat) (S : SState)
    (hS : siblingPhases store maxD sdiff alt gd ns ct lp rp char excl dist = S) :
    (∀ x ∈ excl, x ∈ S.excl) ∧ char ∈ S.excl ∧
    (∀ p ∈ S.res, dist ≤ p.2 ∧ p.2 ≤ maxD ∧ p.1 ∈ S.excl) ∧
    (∀ p ∈ S.queue, dist ≤ p.2 ∧ p.2 ≤ maxD) ∧
    (gd = false → S.queue = []) := by
  subst hS
  unfold siblingPhases
  cases alt with
  | false =>
    simp only [Bool.false_eq_true, if_neg, ite_false]
    obtain ⟨he1, ⟨rt1, hr1, hp1⟩, ⟨qt1, hq1, hqp1, hqg1⟩⟩ :=
      siblingFold_spec store maxD sdiff gd ns ct dist (getNode store lp).descL
        ⟨[], listAddNew excl char, []⟩
    obtain ⟨he2, ⟨rt2, hr2, hp2⟩, ⟨qt2, hq2, hqp2, hqg2⟩⟩ :=
      siblingFold_spec store maxD sdiff gd ns ct dist (getNode store rp).descR
        (siblingFold store maxD sdiff gd ns ct dist (getNode store lp).descL
          ⟨[], listAddNew excl char, []⟩)
    refine ⟨?_, ?_, ?_, ?_, ?_⟩
    · intro x hx
      exact he2 _ (he1 _ (mem_listAddNew_of_mem _ _ _ hx))
    · exact he2 _ (he1 _ (mem_listAddNew_self _ _))
    · intro p hp
      rw [hr2, hr1] at hp
      simp only [List.nil_append, List.mem_append] at hp
      rcases hp with hp | hp
      · obtain ⟨hb, hm, hin⟩ := hp1 p hp
        exact ⟨hb, hm, he2 _ hin⟩
      · exact hp2 p hp
    · intro p hp
      rw [hq2, hq1] at hp
      simp only [List.nil_append, List.mem_append] at hp
      rcases hp with hp | hp
      · exact hqp1 p hp
      · exact hqp2 p hp
    · intro hgd
      rw [hq2, hq1, hqg1 hgd, hqg2 hgd]
      rfl
  | true =>
    simp only [ite_true]
    obtain ⟨he1, ⟨rt1, hr1, hp1⟩, ⟨qt1, hq1, hqp1, hqg1⟩⟩ :=
      siblingFold_spec store maxD sdiff gd ns ct dist (getNode store lp).descL
        ⟨[], listAddNew excl char, []⟩
    obtain ⟨he2, ⟨rt2, hr2, hp2⟩, ⟨qt2, hq2, hqp2, hqg2⟩⟩ :=
      siblingFold_spec store maxD sdiff gd ns ct dist (getNode store rp).descR
        (siblingFold store maxD sdiff gd ns ct dist (getNode store lp).descL
          ⟨[], listAddNew excl char, []⟩)
    obtain ⟨he3, ⟨rt3, hr3, hp3⟩, ⟨qt3, hq3, hqp3, hqg3⟩⟩ :=
      siblingFold_spec store maxD sdiff gd ns ct (dist + COST_DIFFERENT_SIDE)
        (getNode store lp).descR
        (siblingFold store maxD sdiff gd ns ct dist (getNode store rp).descR
          (siblingFold store maxD sdiff gd ns ct dist (getNode store lp).descL
            ⟨[], listAddNew excl char, []⟩))
    obtain ⟨he4, ⟨rt4, hr4, hp4⟩, ⟨qt4, hq4, hqp4, hqg4⟩⟩ :=
      siblingFold_spec store maxD sdiff gd ns ct (dist + COST_DIFFERENT_SIDE)
        (getNode store rp).descL
        (siblingFold store maxD sdiff gd ns ct (dist + COST_DIFFERENT_SIDE)
          (getNode store lp).descR
          (siblingFold store maxD sdiff gd ns ct dist (getNode store rp).descR
            (siblingFold store maxD sdiff gd ns ct dist (getNode store lp).descL
              ⟨[], listAddNew excl char, []⟩)))
    refine ⟨?_, ?_, ?_, ?_, ?_⟩
    · intro x hx
      exact he4 _ (he3 _ (he2 _ (he1 _ (mem_listAddNew_of_mem _ _ _ hx))))
    · exact he4 _ (he3 _ (he2 _ (he1 _ (mem_listAddNew_self _ _))))
    · intro p hp
      rw [hr4, hr3, hr2, hr1] at hp
      simp only [List.nil_append, List.mem_append] at hp
      rcases hp with ((hp | hp) | hp) | hp
      · obtain ⟨hb, hm, hin⟩ := hp1 p hp
        exact ⟨hb, hm, he4 _ (he3 _ (he2 _ hin))⟩
      · obtain ⟨hb, hm, hin⟩ := hp2 p hp
        exact ⟨hb, hm, he4 _ (he3 _ hin)⟩
      · obtain ⟨hb, hm, hin⟩ := hp3 p hp
        exact ⟨by omega, hm, he4 _ hin⟩
      · obtain ⟨hb, hm, hin⟩ := hp4 p hp
        exact ⟨by omega, hm, hin⟩
    · intro p hp
      rw [hq4, hq3, hq2, hq1] at hp
      simp only [List.nil_append, List.mem_append] at hp
      rcases hp with ((hp | hp) | hp) | hp
      · exact hqp1 p hp
      · exact hqp2 p hp
      · obtain ⟨hb, hm⟩ := hqp3 p hp
        exact ⟨by omega, hm⟩
      · obtain ⟨hb, hm⟩ := hqp4 p hp
        exact ⟨by omega, hm⟩
    · intro hgd
      rw [hq4, hq3, hq2, hq1, hqg1 hgd, hqg2 hgd, hqg3 hgd, hqg4 hgd]
      rfl

/-- Unfolding equation for one step of the queued-character loop. -/
theorem processQueueLoop_cons (rec : RVal → List RVal → Nat → Bool → Bool →
      List (RVal × Nat) × List RVal) (maxD : Nat) (gd : Bool) (c : RVal)
    (q : Nat) (rest : List (RVal × Nat)) (excl : List RVal) :
    processQueueLoop rec maxD gd ((c, q) :: rest) excl
      = if maxD < q + COST_DIFFERENT_RADICAL
        then processQueueLoop rec maxD gd rest excl
        else ((rec c excl (q + COST_DIFFERENT_RADICAL) false gd).1
                ++ (processQueueLoop rec maxD gd rest
                      (rec c excl (q + COST_DIFFERENT_RADICAL) false gd).2).1,
              (processQueueLoop rec maxD gd rest
                  (rec c excl (q + COST_DIFFERENT_RADICAL) false gd).2).2) := rfl

/-- The queued-character loop preserves exclusion membership and puts
every yielded character into the final exclusion set, provided each
recursive call does. -/
theorem processQueueLoop_spec (rec : RVal → List RVal → Nat → Bool → Bool →
      List (RVal × Nat) × List RVal) (maxD : Nat) (gd : Bool)
    (hrec : ∀ c e d p g, (∀ x ∈ e, x ∈ (rec c e d p g).2) ∧
        (∀ q ∈ (rec c e d p g).1, q.1 ∈ (rec c e d p g).2)) :
    ∀ (queue : List (RVal × Nat)) (excl : List RVal),
    (∀ x ∈ excl, x ∈ (processQueueLoop rec maxD gd queue excl).2) ∧
    (∀ q ∈ (processQueueLoop rec maxD gd queue excl).1,
        q.1 ∈ (processQueueLoop rec maxD gd queue excl).2) := by
  intro queue
  induction queue with
  | nil => intro excl; exact ⟨fun x hx => hx, by simp [processQueueLoop]⟩
  | cons cq rest ih =>
    intro excl
    obtain ⟨c, q⟩ := cq
    by_cases hskip : maxD < q + COST_DIFFERENT_RADICAL
    · rw [processQueueLoop_cons, if_pos hskip]
      exact ih excl
    · rw [processQueueLoop_cons, if_neg hskip]
      obtain ⟨ihe, ihr⟩ := ih (rec c excl (q + COST_DIFFERENT_RADICAL) false gd).2
      refine ⟨?_, ?_⟩
      · intro x hx
        exact ihe x ((hrec c excl (q + COST_DIFFERENT_RADICAL) false gd).1 x hx)
      · intro p hp
        rcases List.mem_append.mp hp with hp | hp
        · exact ihe _ ((hrec c excl (q + COST_DIFFERENT_RADICAL) false gd).2 p hp)
        · exact ihr p hp

/-- Unfolding equation for the search body when the start character has
no parents: nothing is yielded and the exclusion set is untouched. -/
theorem charactersWithinBody_none (store : Store) (maxD : Nat) (sdiff alt : Bool)
    (rec : RVal → List RVal → Nat → Bool → Bool → List (RVal × Nat) × List RVal)
    (char : RVal) (excl : List RVal) (dist : Nat) (dp gd : Bool)
    (hp : (getNode store char).parent = none) :
    charactersWithinBody store maxD sdiff alt rec char excl dist dp gd = ([], excl) := by
  unfold charactersWithinBody
  rw [hp]

/-- Unfolding equation for the search body when the start character has
a parent triple. -/
theorem charactersWithinBody_some (store : Store) (maxD : Nat) (sdiff alt : Bool)
    (rec : RVal → List RVal → Nat → Bool → Bool → List (RVal × Nat) × List RVal)
    (char : RVal) (excl : List RVal) (dist : Nat) (dp gd : Bool) (ct lp rp : RVal)
    (hp : (getNode store char).parent = some (ct, lp, rp)) :
    charactersWithinBody store maxD sdiff alt rec char excl dist dp gd =
      (let st3 := siblingPhases store maxD sdiff alt gd
          (getNode store char).strokes ct lp rp char excl dist
       if maxD < dist + COST_DIFFERENT_RADICAL then (st3.res, st3.excl)
       else
         let pr :=
           if dp then
             let r1 := rec lp st3.excl (dist + COST_DIFFERENT_RADICAL) false false
             let r2 := rec rp r1.2 (dist + COST_DIFFERENT_RADICAL) false false
             (r1.1 ++ r2.1, r2.2)
           else (([] : List (RVal × Nat)), st3.excl)
         let qr := processQueueLoop rec maxD gd st3.queue pr.2
         (st3.res ++ pr.1 ++ qr.1, qr.2)) := by
  unfold charactersWithinBody
  rw [hp]

/-- The search body preserves exclusion membership, puts every yielded
character into the final exclusion set, and records the start character
(when it has parents), provided each recursive call does the same. -/
theorem charactersWithinBody_spec (store : Store) (maxD : Nat) (sdiff alt : Bool)
    (rec : RVal → List RVal → Nat → Bool → Bool → List (RVal × Nat) × List RVal)
    (hrec : ∀ c e d p g, (∀ x ∈ e, x ∈ (rec c e d p g).2) ∧
        (∀ q ∈ (rec c e d p g).1, q.1 ∈ (rec c e d p g).2)) :
    ∀ (char : RVal) (excl : List RVal) (dist : Nat) (dp gd : Bool),
    (∀ x ∈ excl, x ∈ (charactersWithinBody store maxD sdiff alt rec char excl dist dp gd).2) ∧
    (∀ q ∈ (charactersWithinBody store maxD sdiff alt rec char excl dist dp gd).1,
        q.1 ∈ (charactersWithinBody store maxD sdiff alt rec char excl dist dp gd).2) ∧
    ((getNode store char).parent.isSome →
        char ∈ (charactersWithinBody store maxD sdiff alt rec char excl dist dp gd).2) := by
  intro char excl dist dp gd
  cases hp : (getNode store char).parent with
  | none =>
    rw [charactersWithinBody_none store maxD sdiff alt rec char excl dist dp gd hp]
    refine ⟨fun x hx => hx, by simp, ?_⟩
    intro h
    simp at h
  | some pt =>
    obtain ⟨ct, lp, rp⟩ := pt
    rw [charactersWithinBody_some store maxD sdiff alt rec char excl dist dp gd ct lp rp hp]
    obtain ⟨hpe, hpc, hpr, hpq, hpg⟩ := siblingPhases_spec store maxD sdiff alt gd
      (getNode store char).strokes ct lp rp char excl dist _ rfl
    simp only []
    by_cases hstop : maxD < dist + COST_DIFFERENT_RADICAL
    · rw [if_pos hstop]
      exact ⟨fun x hx => hpe x hx, fun p hq => (hpr p hq).2.2, fun _ => hpc⟩
    · rw [if_neg hstop]
      cases dp with
      | true =>
        simp only [ite_true]
        obtain ⟨h1e, h1r⟩ := hrec lp
          (siblingPhases store maxD sdiff alt gd (getNode store char).strokes
            ct lp rp char excl dist).excl (dist + COST_DIFFERENT_RADICAL) false false
        obtain ⟨h2e, h2r⟩ := hrec rp
          (rec lp (siblingPhases store maxD sdiff alt gd (getNode store char).strokes
            ct lp rp char excl dist).excl (dist + COST_DIFFERENT_RADICAL) false false).2
          (dist + COST_DIFFERENT_RADICAL) false false
        obtain ⟨hqe, hqr⟩ := processQueueLoop_spec rec maxD gd hrec
          (siblingPhases store maxD sdiff alt gd (getNode store char).strokes
            ct lp rp char excl dist).queue
          (rec rp (rec lp (siblingPhases store maxD sdiff alt gd
              (getNode store char).strokes ct lp rp char excl dist).excl
            (dist + COST_DIFFERENT_RADICAL) false false).2
            (dist + COST_DIFFERENT_RADICAL) false false).2
        refine ⟨?_, ?_, ?_⟩
        · intro x hx
          exact hqe x (h2e x (h1e x (hpe x hx)))
        · intro p hq
          simp only [List.append_assoc, List.mem_append] at hq
          rcases hq with hq | hq | hq | hq
          · exact hqe _ (h2e _ (h1e _ ((hpr p hq).2.2)))
          · exact hqe _ (h2e _ (h1r p hq))
          · exact hqe _ (h2r p hq)
          · exact hqr p hq
        · intro _
          exact hqe _ (h2e _ (h1e _ hpc))
      | false =>
        simp only [Bool.false_eq_true, ite_false]
        obtain ⟨hqe, hqr⟩ := processQueueLoop_spec rec maxD gd hrec
          (siblingPhases store maxD sdiff alt gd (getNode store char).strokes
            ct lp rp char excl dist).queue
          (siblingPhases store maxD sdiff alt gd (getNode store char).strokes
            ct lp rp char excl dist).excl
        refine ⟨?_, ?_, ?_⟩
        · intro x hx
          exact hqe x (hpe x hx)
        · intro p hq
          simp only [List.append_nil, List.mem_append] at hq
          rcases hq with hq | hq
          · exact hqe _ ((hpr p hq).2.2)
          · exact hqr p hq
        · intro _
          exact hqe _ hpc

/-- `characters_within` at any recursion depth: the exclusion set only
grows, every yielded character is in the final exclusion set, and the
start character is excluded whenever it has parents (and the fuel is
positive). -/
theorem charactersWithinAux_spec (store : Store) (maxD : Nat) (sdiff alt : Bool) :
    ∀ (fuel : Nat) (char : RVal) (excl : List RVal) (dist : Nat) (dp gd : Bool),
    (∀ x ∈ excl, x ∈ (charactersWithinAux store maxD sdiff alt fuel char excl dist dp gd).2) ∧
    (∀ q ∈ (charactersWithinAux store maxD sdiff alt fuel char excl dist dp gd).1,
        q.1 ∈ (charactersWithinAux store maxD sdiff alt fuel char excl dist dp gd).2) ∧
    ((getNode store char).parent.isSome → 1 ≤ fuel →
        char ∈ (charactersWithinAux store maxD sdiff alt fuel char excl dist dp gd).2) := by
  intro fuel
  induction fuel with
  | zero =>
    intro char excl dist dp gd
    exact ⟨fun x hx => hx, by simp [charactersWithinAux], fun _ h => absurd h (by omega)⟩
  | succ f ih =>
    intro char excl dist dp gd
    have heq : charactersWithinAux store maxD sdiff alt (f + 1) char excl dist dp gd
        = charactersWithinBody store maxD sdiff alt
            (fun c e d p g => charactersWithinAux store maxD sdiff alt f c e d p g)
            char excl dist dp gd := rfl
    rw [heq]
    have hrec : ∀ c e d p g,
        (∀ x ∈ e, x ∈ (charactersWithinAux store maxD sdiff alt f c e d p g).2) ∧
        (∀ q ∈ (charactersWithinAux store maxD sdiff alt f c e d p g).1,
            q.1 ∈ (charactersWithinAux store maxD sdiff alt f c e d p g).2) :=
      fun c e d p g => ⟨(ih c e d p g).1, (ih c e d p g).2.1⟩
    obtain ⟨h1, h2, h3⟩ := charactersWithinBody_spec store maxD sdiff alt
      (fun c e d p g => charactersWithinAux store maxD sdiff alt f c e d p g) hrec
      char excl dist dp gd
    exact ⟨h1, h2, fun hs _ => h3 hs⟩

/-! ## Fuel arithmetic and adequacy: the code's termination argument -/

theorem sufficientFuel_pos (maxD dist : Nat) : 1 ≤ sufficientFuel maxD dist := by
  unfold sufficientFuel COST_DIFFERENT_RADICAL
  omega

theorem sufficientFuel_anti (maxD dist dist' : Nat) (h : dist ≤ dist') :
    sufficientFuel maxD dist' ≤ sufficientFuel maxD dist := by
  unfold sufficientFuel COST_DIFFERENT_RADICAL
  omega

theorem sufficientFuel_step (maxD dist : Nat)
    (h : dist + COST_DIFFERENT_RADICAL ≤ maxD) :
    sufficientFuel maxD (dist + COST_DIFFERENT_RADICAL) + 1
      ≤ sufficientFuel maxD dist := by
  unfold sufficientFuel COST_DIFFERENT_RADICAL at *
  omega

/-- Two queue loops agree when the recursive searches they invoke agree
on every entry that passes the distance guard. -/
theorem processQueueLoop_congr (rec1 rec2 : RVal → List RVal → Nat → Bool → Bool →
      List (RVal × Nat) × List RVal) (maxD : Nat) (gd : Bool) :
    ∀ (queue : List (RVal × Nat)) (excl : List RVal),
    (∀ c q, (c, q) ∈ queue → ¬(maxD < q + COST_DIFFERENT_RADICAL) →
        ∀ e, rec1 c e (q + COST_DIFFERENT_RADICAL) false gd
          = rec2 c e (q + COST_DIFFERENT_RADICAL) false gd) →
    processQueueLoop rec1 maxD gd queue excl
      = processQueueLoop rec2 maxD gd queue excl := by
  intro queue
  induction queue with
  | nil => intro excl _; rfl
  | cons cq rest ih =>
    intro excl h
    obtain ⟨c, q⟩ := cq
    rw [processQueueLoop_cons, processQueueLoop_cons]
    by_cases hskip : maxD < q + COST_DIFFERENT_RADICAL
    · rw [if_pos hskip, if_pos hskip]
      exact ih excl (fun c' q' hm => h c' q' (List.mem_cons_of_mem _ hm))
    · rw [if_neg hskip, if_neg hskip]
      rw [h c q (List.mem_cons_self _ _) hskip excl]
      rw [ih (rec2 c excl (q + COST_DIFFERENT_RADICAL) false gd).2
        (fun c' q' hm => h c' q' (List.mem_cons_of_mem _ hm))]

/-- C2: for every finite store (cycles included), start character and
finite threshold, the search terminates with recursion depth bounded by
`(maxDistance - distance) / COST_DIFFERENT_RADICAL`: every recursive
invocation adds at least `COST_DIFFERENT_RADICAL` to the accumulated
distance and is refused once the distance would exceed `maxDistance`,
so any two fuels at least `sufficientFuel` produce the same fully
consumed sequence — the fuelled model has reached its fixed point and
the Python recursion is finite. -/
theorem characters_within_fuel_adequate (store : Store) (maxD : Nat)
    (sdiff alt : Bool) :
    ∀ (f g : Nat) (char : RVal) (excl : List RVal) (dist : Nat) (dp gd : Bool),
      sufficientFuel maxD dist ≤ f → sufficientFuel maxD dist ≤ g →
      charactersWithinAux store maxD sdiff alt f char excl dist dp gd
        = charactersWithinAux store maxD sdiff alt g char excl dist dp gd := by
  intro f
  induction f with
  | zero =>
    intro g char excl dist dp gd hf _
    exact absurd hf (by have := sufficientFuel_pos maxD dist; omega)
  | succ f ih =>
    intro g char excl dist dp gd hf hg
    cases g with
    | zero =>
      exact absurd hg (by have := sufficientFuel_pos maxD dist; omega)
    | succ g' =>
      show charactersWithinBody store maxD sdiff alt
          (fun c e d p g => charactersWithinAux store maxD sdiff alt f c e d p g)
          char excl dist dp gd
        = charactersWithinBody store maxD sdiff alt
          (fun c e d p g => charactersWithinAux store maxD sdiff alt g' c e d p g)
          char excl dist dp gd
      cases hp : (getNode store char).parent with
      | none =>
        rw [charactersWithinBody_none _ _ _ _ _ _ _ _ _ _ hp,
          charactersWithinBody_none _ _ _ _ _ _ _ _ _ _ hp]
      | some pt =>
        obtain ⟨ct, lp, rp⟩ := pt
        rw [charactersWithinBody_some _ _ _ _ _ _ _ _ _ _ ct lp rp hp,
          charactersWithinBody_some _ _ _ _ _ _ _ _ _ _ ct lp rp hp]
        simp only []
        by_cases hstop : maxD < dist + COST_DIFFERENT_RADICAL
        · rw [if_pos hstop, if_pos hstop]
        · rw [if_neg hstop, if_neg hstop]
          have hd2 : dist + COST_DIFFERENT_RADICAL ≤ maxD := by omega
          have hstep := sufficientFuel_step maxD dist hd2
          have hsf : sufficientFuel maxD (dist + COST_DIFFERENT_RADICAL) ≤ f := by
            omega
          have hsg : sufficientFuel maxD (dist + COST_DIFFERENT_RADICAL) ≤ g' := by
            omega
          obtain ⟨-, -, -, hpq, -⟩ := siblingPhases_spec store maxD sdiff alt gd
            (getNode store char).strokes ct lp rp char excl dist _ rfl
          have hqcongr : ∀ X : List RVal,
              processQueueLoop
                (fun c e d p g => charactersWithinAux store maxD sdiff alt f c e d p g)
                maxD gd
                (siblingPhases store maxD sdiff alt gd (getNode store char).strokes
                  ct lp rp char excl dist).queue X
              = processQueueLoop
                (fun c e d p g => charactersWithinAux store maxD sdiff alt g' c e d p g)
                maxD gd
                (siblingPhases store maxD sdiff alt gd (getNode store char).strokes
                  ct lp rp char excl dist).queue X := by
            intro X
            refine processQueueLoop_congr _ _ maxD gd _ X ?_
            intro c q hm hq e
            have hdq : dist ≤ q := (hpq (c, q) hm).1
            have h1 : sufficientFuel maxD (q + COST_DIFFERENT_RADICAL)
                ≤ sufficientFuel maxD (dist + COST_DIFFERENT_RADICAL) :=
              sufficientFuel_anti _ _ _ (by omega)
            exact ih g' c e (q + COST_DIFFERENT_RADICAL) false gd
              (by omega) (by omega)
          cases dp with
          | true =>
            simp only [ite_true]
            rw [ih g' lp _ (dist + COST_DIFFERENT_RADICAL) false false hsf hsg]
            rw [ih g' rp _ (dist + COST_DIFFERENT_RADICAL) false false hsf hsg]
            rw [hqcongr _]
          | false =>
            simp only [Bool.false_eq_true, ite_false]
            rw [hqcongr _]

/-! ## Claim theorems: the search's basic contracts -/

/-- The wrapper unfolded one recursion level (the sufficient fuel is
definitionally a successor). -/
theorem characters_within_unfold (store : Store) (char : RVal) (maxD : Nat)
    (excl : List RVal) (sdiff alt dp gd : Bool) :
    characters_within store char maxD excl sdiff alt dp gd
      = ((charactersWithinBody store maxD sdiff alt
            (fun c e d p g => charactersWithinAux store maxD sdiff alt
              ((maxD - COST_DIFFERENT_RADICAL) / COST_DIFFERENT_RADICAL) c e d p g)
            char excl COST_DIFFERENT_RADICAL dp gd).1,
         if excl.isEmpty then excl
         else (charactersWithinBody store maxD sdiff alt
            (fun c e d p g => charactersWithinAux store maxD sdiff alt
              ((maxD - COST_DIFFERENT_RADICAL) / COST_DIFFERENT_RADICAL) c e d p g)
            char excl COST_DIFFERENT_RADICAL dp gd).2) := rfl

/-- C9: a start character whose node has no parent triple yields the
empty sequence and leaves the exclusion set untouched, for every
threshold, option combination and exclusion-set contents. -/
theorem characters_within_no_parent (store : Store) (char : RVal) (n : Node)
    (maxD : Nat) (excl : List RVal) (sdiff alt dp gd : Bool)
    (h1 : lookupStore store char = some n) (h2 : n.parent = none) :
    characters_within store char maxD excl sdiff alt dp gd = ([], excl) := by
  have hg : (getNode store char).parent = none := by
    rw [getNode, h1]
    simpa using h2
  rw [characters_within_unfold]
  rw [charactersWithinBody_none _ _ _ _ _ _ _ _ _ _ hg]
  by_cases he : excl.isEmpty
  · rw [if_pos he]
  · rw [if_neg he]

/-- C9 witness: the search from the rootless character `nv` of the
`hao`/`ru` store yields nothing and hands back the exclusion set. -/
theorem characters_within_no_parent_witness :
    lookupStore storeHao (RVal.str "nv") = some (getNode storeHao (RVal.str "nv")) ∧
    (getNode storeHao (RVal.str "nv")).parent = none ∧
    characters_within storeHao (RVal.str "nv") 500 [RVal.str "q"] true true true true
      = ([], [RVal.str "q"]) :=
  ⟨by decide, by decide,
    characters_within_no_parent storeHao (RVal.str "nv")
      (getNode storeHao (RVal.str "nv")) 500 [RVal.str "q"] true true true true
      (by decide) (by decide)⟩

/-- C5: searching from a character that is not a key of the store
signals an error — an outcome distinct from an empty result list — and
the caller's exclusion set comes back exactly as it was (the store,
being a value the search never rebuilds, is untouched by construction). -/
theorem characters_within_unknown_start (store : Store) (char : RVal)
    (maxD : Nat) (excl : List RVal) (sdiff alt dp gd : Bool)
    (h : lookupStore store char = none) :
    charactersWithinChecked store char maxD excl sdiff alt dp gd
      = (Except.error (), excl) := by
  unfold charactersWithinChecked
  rw [h]

/-- C5 witness: an unknown start character on the `hao`/`ru` store
errors out and preserves the exclusion set. -/
theorem characters_within_unknown_start_witness :
    lookupStore storeHao (RVal.str "nosuch") = none ∧
    charactersWithinChecked storeHao (RVal.str "nosuch") 100 [RVal.str "w"]
        false true true true
      = (Except.error (), [RVal.str "w"]) :=
  ⟨by decide,
    characters_within_unknown_start storeHao (RVal.str "nosuch") 100
      [RVal.str "w"] false true true true (by decide)⟩

/-- C1 counterexample: with a caller-supplied empty exclusion set the
Python truthiness test `if not exclusions` replaces the set with a
fresh internal one, so after a search from `hao` (which has a parent
and yields `ru`) the caller's set is still empty — it contains neither
the start character nor the yielded character, contradicting the claim
for the empty-set case. -/
theorem characters_within_empty_exclusions_counterexample :
    (getNode storeHao (RVal.str "hao")).parent.isSome = true ∧
    (characters_within storeHao (RVal.str "hao") 100 [] false true true true).1
      = [(RVal.str "ru", 100)] ∧
    (characters_within storeHao (RVal.str "hao") 100 [] false true true true).2
      = [] ∧
    RVal.str "hao"
      ∉ (characters_within storeHao (RVal.str "hao") 100 [] false true true true).2 := by
  refine ⟨by decide, by decide, by decide, by decide⟩

/-- C1 (amended): for every store, start character with a parent,
threshold, options and NON-EMPTY caller-supplied exclusion set, after
the sequence is fully consumed the caller's set is a superset of its
initial contents, contains the start character, and contains every
yielded character.  (An empty caller set is falsy in Python and gets
silently replaced by a fresh internal set, so it comes back unchanged —
the counterexample above.) -/
theorem characters_within_exclusions_superset (store : Store) (char : RVal)
    (maxD : Nat) (excl : List RVal) (sdiff alt dp gd : Bool)
    (hne : excl ≠ []) (hpar : (getNode store char).parent.isSome) :
    (∀ x ∈ excl, x ∈ (characters_within store char maxD excl sdiff alt dp gd).2) ∧
    char ∈ (characters_within store char maxD excl sdiff alt dp gd).2 ∧
    (∀ p ∈ (characters_within store char maxD excl sdiff alt dp gd).1,
        p.1 ∈ (characters_within store char maxD excl sdiff alt dp gd).2) := by
  have hie : excl.isEmpty = false := by
    cases excl with
    | nil => exact absurd rfl hne
    | cons a t => rfl
  obtain ⟨h1, h2, h3⟩ := charactersWithinAux_spec store maxD sdiff alt
    (sufficientFuel maxD COST_DIFFERENT_RADICAL) char excl
    COST_DIFFERENT_RADICAL dp gd
  unfold characters_within
  simp only [hie, Bool.false_eq_true, ite_false]
  exact ⟨h1, h3 hpar (sufficientFuel_pos _ _), h2⟩

/-- C1 witness: a non-empty exclusion set on the `hao`/`ru` store ends
up containing the start character. -/
theorem characters_within_exclusions_superset_witness :
    ([RVal.str "zzz"] ≠ ([] : List RVal)) ∧
    (getNode storeHao (RVal.str "hao")).parent.isSome = true ∧
    RVal.str "hao" ∈ (characters_within storeHao (RVal.str "hao") 100
      [RVal.str "zzz"] false true true true).2 :=
  ⟨by decide, by decide,
    (characters_within_exclusions_superset storeHao (RVal.str "hao") 100
      [RVal.str "zzz"] false true true true (by decide) (by decide)).2.1⟩

/-- C2 witness: two different sufficient fuels compute the same search
on the `X`/`S`/`L` store. -/
theorem characters_within_fuel_adequate_witness :
    sufficientFuel 250 100 ≤ 3 ∧ sufficientFuel 250 100 ≤ 7 ∧
    charactersWithinAux storePS 250 false true 3 (RVal.str "X") [] 100 true true
      = charactersWithinAux storePS 250 false true 7 (RVal.str "X") [] 100 true true :=
  ⟨by decide, by decide,
    characters_within_fuel_adequate storePS 250 false true 3 7 (RVal.str "X")
      [] 100 true true (by decide) (by decide)⟩

/-! ## Claim theorems: option monotonicity -/

/-- C7 counterexample: on the store `X = L + R`, `S = L + Q`,
`L = M + Q`, the search from `X` with threshold 2.5 radicals and
parent-sibling expansion disabled yields `S` and then `L` (found as a
second-generation sibling), but the otherwise-identical search with
parent-sibling expansion enabled yields only `S`: the recursive
parent-sibling call visits `L` without yielding it, adding it to the
shared exclusion set, which then suppresses it in the deeper
expansion.  Enabling the option removed a result. -/
theorem characters_within_parent_siblings_counterexample :
    (characters_within storePS (RVal.str "X") 250 [] false true false true).1
      = [(RVal.str "S", 100), (RVal.str "L", 200)] ∧
    (characters_within storePS (RVal.str "X") 250 [] false true true true).1
      = [(RVal.str "S", 100)] ∧
    (RVal.str "L", 200)
      ∉ (characters_within storePS (RVal.str "X") 250 [] false true true true).1 ∧
    RVal.str "L"
      ∉ ((characters_within storePS (RVal.str "X") 250 [] false true true true).1.map
          Prod.fst) := by
  refine ⟨by decide, by decide, by decide, by decide⟩

/-- C7 (amended): with parent-sibling expansion and deeper expansion
both disabled, enabling `includeParentAlternates` only appends
additional results after the results of the disabled run: every pair
yielded with the option disabled is yielded, unchanged, by the run with
it enabled.  (With parent-sibling expansion or deeper expansion
enabled, enabling an option can remove results, as the counterexample
shows.) -/
theorem characters_within_alternates_monotone (store : Store) (char : RVal)
    (maxD : Nat) (excl : List RVal) (sdiff : Bool) :
    (∃ tail, (characters_within store char maxD excl sdiff true false false).1
      = (characters_within store char maxD excl sdiff false false false).1 ++ tail) ∧
    (∀ p ∈ (characters_within store char maxD excl sdiff false false false).1,
      p ∈ (characters_within store char maxD excl sdiff true false false).1) := by
  have hmain : ∃ tail,
      (characters_within store char maxD excl sdiff true false false).1
        = (characters_within store char maxD excl sdiff false false false).1 ++ tail := by
    rw [characters_within_unfold, characters_within_unfold]
    simp only []
    cases hp : (getNode store char).parent with
    | none =>
      rw [charactersWithinBody_none _ _ _ _ _ _ _ _ _ _ hp,
        charactersWithinBody_none _ _ _ _ _ _ _ _ _ _ hp]
      exact ⟨[], rfl⟩
    | some pt =>
      obtain ⟨ct, lp, rp⟩ := pt
      rw [charactersWithinBody_some _ _ _ _ _ _ _ _ _ _ ct lp rp hp,
        charactersWithinBody_some _ _ _ _ _ _ _ _ _ _ ct lp rp hp]
      simp only []
      have hTF : siblingPhases store maxD sdiff true false
          (getNode store char).strokes ct lp rp char excl COST_DIFFERENT_RADICAL
        = siblingFold store maxD sdiff false (getNode store char).strokes ct
            (COST_DIFFERENT_RADICAL + COST_DIFFERENT_SIDE) (getNode store rp).descL
            (siblingFold store maxD sdiff false (getNode store char).strokes ct
              (COST_DIFFERENT_RADICAL + COST_DIFFERENT_SIDE) (getNode store lp).descR
              (siblingPhases store maxD sdiff false false
                (getNode store char).strokes ct lp rp char excl
                COST_DIFFERENT_RADICAL)) := rfl
      obtain ⟨-, ⟨rt3, hr3, -⟩, -⟩ := siblingFold_spec store maxD sdiff false
        (getNode store char).strokes ct
        (COST_DIFFERENT_RADICAL + COST_DIFFERENT_SIDE) (getNode store lp).descR
        (siblingPhases store maxD sdiff false false
          (getNode store char).strokes ct lp rp char excl COST_DIFFERENT_RADICAL)
      obtain ⟨-, ⟨rt4, hr4, -⟩, -⟩ := siblingFold_spec store maxD sdiff false
        (getNode store char).strokes ct
        (COST_DIFFERENT_RADICAL + COST_DIFFERENT_SIDE) (getNode store rp).descL
        (siblingFold store maxD sdiff false (getNode store char).strokes ct
          (COST_DIFFERENT_RADICAL + COST_DIFFERENT_SIDE) (getNode store lp).descR
          (siblingPhases store maxD sdiff false false
            (getNode store char).strokes ct lp rp char excl COST_DIFFERENT_RADICAL))
      have hres : (siblingPhases store maxD sdiff true false
            (getNode store char).strokes ct lp rp char excl
            COST_DIFFERENT_RADICAL).res
          = (siblingPhases store maxD sdiff false false
              (getNode store char).strokes ct lp rp char excl
              COST_DIFFERENT_RADICAL).res ++ (rt3 ++ rt4) := by
        rw [hTF, hr4, hr3, List.append_assoc]
      obtain ⟨-, -, -, -, hqT⟩ := siblingPhases_spec store maxD sdiff true false
        (getNode store char).strokes ct lp rp char excl COST_DIFFERENT_RADICAL _ rfl
      obtain ⟨-, -, -, -, hqF⟩ := siblingPhases_spec store maxD sdiff false false
        (getNode store char).strokes ct lp rp char excl COST_DIFFERENT_RADICAL _ rfl
      by_cases hstop : maxD < COST_DIFFERENT_RADICAL + COST_DIFFERENT_RADICAL
      · rw [if_pos hstop, if_pos hstop]
        exact ⟨rt3 ++ rt4, hres⟩
      · rw [if_neg hstop, if_neg hstop]
        simp only [Bool.false_eq_true, ite_false, hqT rfl, hqF rfl]
        refine ⟨rt3 ++ rt4, ?_⟩
        simp only [processQueueLoop, List.append_nil]
        exact hres
  obtain ⟨tail, ht⟩ := hmain
  refine ⟨⟨tail, ht⟩, ?_⟩
  intro p hp
  rw [ht]
  exact List.mem_append_left _ hp

/-- C8: in a top-level search (base distance `COST_DIFFERENT_RADICAL`),
every pair yielded by the two same-side sibling loops (characters drawn
from `leftParent.descendantsLeft` or `rightParent.descendantsRight`)
has distance at least `COST_DIFFERENT_RADICAL`, every pair added by the
two opposite-side loops has distance at least
`COST_DIFFERENT_RADICAL + COST_DIFFERENT_SIDE`, and the four loops'
yields are exactly the first results of the fully consumed search. -/
theorem characters_within_distance_bounds (store : Store) (char : RVal)
    (maxD : Nat) (excl : List RVal) (sdiff dp gd : Bool) (nd : Node)
    (ct lp rp : RVal)
    (h1 : lookupStore store char = some nd) (h2 : nd.parent = some (ct, lp, rp)) :
    (∀ p ∈ (siblingFold store maxD sdiff gd nd.strokes ct COST_DIFFERENT_RADICAL
        (getNode store rp).descR
        (siblingFold store maxD sdiff gd nd.strokes ct COST_DIFFERENT_RADICAL
          (getNode store lp).descL ⟨[], listAddNew excl char, []⟩)).res,
      COST_DIFFERENT_RADICAL ≤ p.2) ∧
    (∀ p ∈ (siblingPhases store maxD sdiff true gd nd.strokes ct lp rp char excl
        COST_DIFFERENT_RADICAL).res,
      p ∈ (siblingFold store maxD sdiff gd nd.strokes ct COST_DIFFERENT_RADICAL
            (getNode store rp).descR
            (siblingFold store maxD sdiff gd nd.strokes ct COST_DIFFERENT_RADICAL
              (getNode store lp).descL ⟨[], listAddNew excl char, []⟩)).res ∨
        COST_DIFFERENT_RADICAL + COST_DIFFERENT_SIDE ≤ p.2) ∧
    (∃ tail, (characters_within store char maxD excl sdiff true dp gd).1
      = (siblingPhases store maxD sdiff true gd nd.strokes ct lp rp char excl
          COST_DIFFERENT_RADICAL).res ++ tail) := by
  have hg : getNode store char = nd := by
    rw [getNode, h1]
    rfl
  have hgp : (getNode store char).parent = some (ct, lp, rp) := by rw [hg]; exact h2
  obtain ⟨-, ⟨rt1, hr1, hp1⟩, -⟩ := siblingFold_spec store maxD sdiff gd nd.strokes
    ct COST_DIFFERENT_RADICAL (getNode store lp).descL ⟨[], listAddNew excl char, []⟩
  obtain ⟨-, ⟨rt2, hr2, hp2⟩, -⟩ := siblingFold_spec store maxD sdiff gd nd.strokes
    ct COST_DIFFERENT_RADICAL (getNode store rp).descR
    (siblingFold store maxD sdiff gd nd.strokes ct COST_DIFFERENT_RADICAL
      (getNode store lp).descL ⟨[], listAddNew excl char, []⟩)
  have hsame : ∀ p ∈ (siblingFold store maxD sdiff gd nd.strokes ct
      COST_DIFFERENT_RADICAL (getNode store rp).descR
      (siblingFold store maxD sdiff gd nd.strokes ct COST_DIFFERENT_RADICAL
        (getNode store lp).descL ⟨[], listAddNew excl char, []⟩)).res,
      COST_DIFFERENT_RADICAL ≤ p.2 := by
    intro p hp
    rw [hr2, hr1] at hp
    simp only [List.nil_append, List.mem_append] at hp
    rcases hp with hp | hp
    · exact (hp1 p hp).1
    · exact (hp2 p hp).1
  have hTF : siblingPhases store maxD sdiff true gd nd.strokes ct lp rp char excl
      COST_DIFFERENT_RADICAL
    = siblingFold store maxD sdiff gd nd.strokes ct
        (COST_DIFFERENT_RADICAL + COST_DIFFERENT_SIDE) (getNode store rp).descL
        (siblingFold store maxD sdiff gd nd.strokes ct
          (COST_DIFFERENT_RADICAL + COST_DIFFERENT_SIDE) (getNode store lp).descR
          (siblingFold store maxD sdiff gd nd.strokes ct COST_DIFFERENT_RADICAL
            (getNode store rp).descR
            (siblingFold store maxD sdiff gd nd.strokes ct COST_DIFFERENT_RADICAL
              (getNode store lp).descL ⟨[], listAddNew excl char, []⟩))) := rfl
  refine ⟨hsame, ?_, ?_⟩
  · obtain ⟨-, ⟨rt3, hr3, hp3⟩, -⟩ := siblingFold_spec store maxD sdiff gd nd.strokes
      ct (COST_DIFFERENT_RADICAL + COST_DIFFERENT_SIDE) (getNode store lp).descR
      (siblingFold store maxD sdiff gd nd.strokes ct COST_DIFFERENT_RADICAL
        (getNode store rp).descR
        (siblingFold store maxD sdiff gd nd.strokes ct COST_DIFFERENT_RADICAL
          (getNode store lp).descL ⟨[], listAddNew excl char, []⟩))
    obtain ⟨-, ⟨rt4, hr4, hp4⟩, -⟩ := siblingFold_spec store maxD sdiff gd nd.strokes
      ct (COST_DIFFERENT_RADICAL + COST_DIFFERENT_SIDE) (getNode store rp).descL
      (siblingFold store maxD sdiff gd nd.strokes ct
        (COST_DIFFERENT_RADICAL + COST_DIFFERENT_SIDE) (getNode store lp).descR
        (siblingFold store maxD sdiff gd nd.strokes ct COST_DIFFERENT_RADICAL
          (getNode store rp).descR
          (siblingFold store maxD sdiff gd nd.strokes ct COST_DIFFERENT_RADICAL
            (getNode store lp).descL ⟨[], listAddNew excl char, []⟩)))
    intro p hp
    rw [hTF, hr4, hr3] at hp
    simp only [List.mem_append] at hp
    rcases hp with (hp | hp) | hp
    · exact Or.inl hp
    · exact Or.inr (hp3 p hp).1
    · exact Or.inr (hp4 p hp).1
  · rw [characters_within_unfold]
    simp only []
    rw [charactersWithinBody_some _ _ _ _ _ _ _ _ _ _ ct lp rp hgp]
    rw [hg]
    simp only []
    by_cases hstop : maxD < COST_DIFFERENT_RADICAL + COST_DIFFERENT_RADICAL
    · rw [if_pos hstop]
      exact ⟨[], (List.append_nil _).symm⟩
    · rw [if_neg hstop]
      exact ⟨_, List.append_assoc _ _ _⟩

/-- C8 witness: the bounds instantiated on the `hao`/`ru` store. -/
theorem characters_within_distance_bounds_witness :
    lookupStore storeHao (RVal.str "hao") = some (getNode storeHao (RVal.str "hao")) ∧
    (getNode storeHao (RVal.str "hao")).parent
      = some (RVal.str "LR", RVal.str "nv", RVal.str "zi") ∧
    (∃ tail, (characters_within storeHao (RVal.str "hao") 100 [] false true
        true true).1
      = (siblingPhases storeHao 100 false true true
          (getNode storeHao (RVal.str "hao")).strokes (RVal.str "LR")
          (RVal.str "nv") (RVal.str "zi") (RVal.str "hao") []
          COST_DIFFERENT_RADICAL).res ++ tail) :=
  ⟨by decide, by decide,
    (characters_within_distance_bounds storeHao (RVal.str "hao") 100 [] false
      true true (getNode storeHao (RVal.str "hao")) (RVal.str "LR")
      (RVal.str "nv") (RVal.str "zi") (by decide) (by decide)).2.2⟩

/-! ## Lemmas about the builder's store operations -/

theorem lookupStore_cons (p : RVal × Node) (rest : Store) (k : RVal) :
    lookupStore (p :: rest) k = if p.1 = k then some p.2 else lookupStore rest k := rfl

theorem updateNode_cons (p : RVal × Node) (rest : Store) (k : RVal) (f : Node → Node) :
    updateNode (p :: rest) k f
      = (if p.1 = k then (p.1, f p.2) else p) :: updateNode rest k f := rfl

theorem lookup_updateNode_ne (st : Store) (k : RVal) (f : Node → Node) (x : RVal)
    (hxk : x ≠ k) : lookupStore (updateNode st k f) x = lookupStore st x := by
  induction st with
  | nil => rfl
  | cons p rest ih =>
    obtain ⟨pk, pv⟩ := p
    rw [updateNode_cons]
    by_cases hpk : pk = k
    · rw [if_pos (by simpa using hpk), lookupStore_cons, lookupStore_cons]
      have hpx : ¬(pk = x) := fun h => hxk (by rw [← h, hpk])
      rw [if_neg (by simpa using hpx), if_neg (by simpa using hpx)]
      exact ih
    · rw [if_neg (by simpa using hpk), lookupStore_cons, lookupStore_cons]
      by_cases hpx : pk = x
      · rw [if_pos (by simpa using hpx), if_pos (by simpa using hpx)]
      · rw [if_neg (by simpa using hpx), if_neg (by simpa using hpx)]
        exact ih

theorem lookup_updateNode_eq (st : Store) (k : RVal) (f : Node → Node) :
    lookupStore (updateNode st k f) k = (lookupStore st k).map f := by
  induction st with
  | nil => rfl
  | cons p rest ih =>
    obtain ⟨pk, pv⟩ := p
    rw [updateNode_cons]
    by_cases hpk : pk = k
    · rw [if_pos (by simpa using hpk), lookupStore_cons, lookupStore_cons]
      rw [if_pos (by simpa using hpk), if_pos (by simpa using hpk)]
      rfl
    · rw [if_neg (by simpa using hpk), lookupStore_cons, lookupStore_cons]
      rw [if_neg (by simpa using hpk), if_neg (by simpa using hpk)]
      exact ih

theorem lookup_append_of_some (st l2 : Store) (x : RVal) (n : Node)
    (h : lookupStore st x = some n) : lookupStore (st ++ l2) x = some n := by
  induction st with
  | nil => simp [lookupStore] at h
  | cons p rest ih =>
    rw [List.cons_append, lookupStore_cons]
    rw [lookupStore_cons] at h
    by_cases hpx : p.1 = x
    · rw [if_pos hpx] at h ⊢
      exact h
    · rw [if_neg hpx] at h ⊢
      exact ih h

theorem lookup_append_of_none (st l2 : Store) (x : RVal)
    (h : lookupStore st x = none) :
    lookupStore (st ++ l2) x = lookupStore l2 x := by
  induction st with
  | nil => rfl
  | cons p rest ih =>
    rw [List.cons_append, lookupStore_cons]
    rw [lookupStore_cons] at h
    by_cases hpx : p.1 = x
    · rw [if_pos hpx] at h
      exact absurd h (by simp)
    · rw [if_neg hpx] at h ⊢
      exact ih h

theorem lookup_ensureNode_of_some (st : Store) (k x : RVal) (n : Node)
    (h : lookupStore st x = some n) : lookupStore (ensureNode st k) x = some n := by
  unfold ensureNode
  by_cases hk : storeHasKey st k
  · rw [if_pos hk]
    exact h
  · rw [if_neg hk]
    exact lookup_append_of_some st _ x n h

theorem lookup_ensureNode_self_isSome (st : Store) (k : RVal) :
    (lookupStore (ensureNode st k) k).isSome = true := by
  unfold ensureNode
  by_cases hk : storeHasKey st k
  · rw [if_pos hk]
    exact hk
  · rw [if_neg hk]
    unfold storeHasKey at hk
    cases hl : lookupStore st k with
    | some n => rw [hl] at hk; simp at hk
    | none =>
      rw [lookup_append_of_none st _ k hl, lookupStore_cons, if_pos rfl]
      rfl

theorem lookup_isSome_updateNode (st : Store) (k : RVal) (f : Node → Node)
    (c : RVal) (h : (lookupStore st c).isSome = true) :
    (lookupStore (updateNode st k f) c).isSome = true := by
  by_cases hck : c = k
  · subst hck
    rw [lookup_updateNode_eq]
    cases hl : lookupStore st c with
    | some n => rfl
    | none => rw [hl] at h; exact absurd h (by simp)
  · rw [lookup_updateNode_ne st k f c hck]
    exact h

theorem lookup_isSome_ensureNode (st : Store) (k c : RVal)
    (h : (lookupStore st c).isSome = true) :
    (lookupStore (ensureNode st k) c).isSome = true := by
  cases hl : lookupStore st c with
  | some n => rw [lookup_ensureNode_of_some st k c n hl]; rfl
  | none => rw [hl] at h; exact absurd h (by simp)

theorem lookup_parent_some_updateNode (st : Store) (k : RVal) (f : Node → Node)
    (c : RVal) (hf : ∀ n, n.parent.isSome = true → (f n).parent.isSome = true)
    (h : ∃ n, lookupStore st c = some n ∧ n.parent.isSome = true) :
    ∃ n, lookupStore (updateNode st k f) c = some n ∧ n.parent.isSome = true := by
  obtain ⟨n, hn, hp⟩ := h
  by_cases hck : c = k
  · subst hck
    rw [lookup_updateNode_eq, hn]
    exact ⟨f n, rfl, hf n hp⟩
  · rw [lookup_updateNode_ne st k f c hck]
    exact ⟨n, hn, hp⟩

theorem lookup_parent_some_ensureNode (st : Store) (k c : RVal)
    (h : ∃ n, lookupStore st c = some n ∧ n.parent.isSome = true) :
    ∃ n, lookupStore (ensureNode st k) c = some n ∧ n.parent.isSome = true := by
  obtain ⟨n, hn, hp⟩ := h
  exact ⟨n, lookup_ensureNode_of_some st k c n hn, hp⟩

theorem lookup_parent_none_updateNode (st : Store) (k : RVal) (f : Node → Node)
    (c : RVal) (hf : ∀ n, (f n).parent = n.parent)
    (h : ∀ n, lookupStore st c = some n → n.parent = none) :
    ∀ n, lookupStore (updateNode st k f) c = some n → n.parent = none := by
  intro n hn
  by_cases hck : c = k
  · subst hck
    rw [lookup_updateNode_eq] at hn
    cases hl : lookupStore st c with
    | some n0 =>
      rw [hl] at hn
      have : n = f n0 := by simpa using hn.symm
      rw [this, hf n0]
      exact h n0 hl
    | none => rw [hl] at hn; exact absurd hn (by simp)
  · rw [lookup_updateNode_ne st k f c hck] at hn
    exact h n hn

theorem lookup_parent_none_ensureNode (st : Store) (k c : RVal)
    (h : ∀ n, lookupStore st c = some n → n.parent = none) :
    ∀ n, lookupStore (ensureNode st k) c = some n → n.parent = none := by
  intro n hn
  unfold ensureNode at hn
  by_cases hk : storeHasKey st k
  · rw [if_pos hk] at hn
    exact h n hn
  · rw [if_neg hk] at hn
    cases hl : lookupStore st c with
    | some n0 =>
      rw [lookup_append_of_some st _ c n0 hl] at hn
      have : n = n0 := by simpa using hn.symm
      rw [this]
      exact h n0 hl
    | none =>
      rw [lookup_append_of_none st _ c hl, lookupStore_cons] at hn
      by_cases hkc : k = c
      · rw [if_pos hkc] at hn
        have : n = dummyNode := by simpa using hn.symm
        rw [this]
        rfl
      · rw [if_neg hkc] at hn
        exact absurd hn (by simp [lookupStore])

/-- Outcome of processing one raw entry, by field count: three fields
succeed after padding the list in place with a null, four fields
succeed with the list untouched, anything else is a fatal error. -/
theorem loadEntry_shape (st : Store) (c : String) (d : List RVal) :
    ((d.length = 3 ∨ d.length = 4) →
      ∃ st', loadEntry st c d
        = Except.ok (st', if d.length = 3 then d ++ [RVal.null] else d)) ∧
    ((d.length < 3 ∨ 4 < d.length) → ∃ e, loadEntry st c d = Except.error e) := by
  rcases d with _ | ⟨a, _ | ⟨b, _ | ⟨c3, _ | ⟨e4, _ | ⟨f5, rest⟩⟩⟩⟩⟩
  · exact ⟨fun h => absurd h (by simp),
      fun _ => ⟨"radical data list somehow didn't at least 3 entries", rfl⟩⟩
  · exact ⟨fun h => absurd h (by simp),
      fun _ => ⟨"radical data list somehow didn't at least 3 entries", rfl⟩⟩
  · exact ⟨fun h => absurd h (by simp),
      fun _ => ⟨"radical data list somehow didn't at least 3 entries", rfl⟩⟩
  · refine ⟨fun _ => ⟨setStrokes (ensureNode st (RVal.str c)) (RVal.str c) a, ?_⟩,
      fun h => absurd h (by simp)⟩
    simp [loadEntry, padEntry, rval_falsy]
  · refine ⟨fun _ => ?_, fun h => absurd h (by simp)⟩
    cases hf1 : rval_falsy (if c3 = RVal.str c then RVal.null else c3) with
    | true =>
      refine ⟨setStrokes (ensureNode st (RVal.str c)) (RVal.str c) a, ?_⟩
      simp [loadEntry, padEntry, hf1]
    | false =>
      cases hf2 : rval_falsy e4 with
      | true =>
        refine ⟨setStrokes (ensureNode st (RVal.str c)) (RVal.str c) a, ?_⟩
        simp [loadEntry, padEntry, hf1, hf2]
      | false =>
        refine ⟨addDescR (addDescL (setParent (ensureNode (ensureNode
            (setStrokes (ensureNode st (RVal.str c)) (RVal.str c) a)
            (if c3 = RVal.str c then RVal.null else c3)) e4) (RVal.str c)
            (b, if c3 = RVal.str c then RVal.null else c3, e4))
            (if c3 = RVal.str c then RVal.null else c3) (RVal.str c)) e4 (RVal.str c), ?_⟩
        simp [loadEntry, padEntry, hf1, hf2]
  · refine ⟨fun h => absurd h (by simp),
      fun _ => ⟨"could not destructure radical data list", ?_⟩⟩
    unfold loadEntry padEntry
    rw [if_neg (by simp only [List.length_cons]; omega)]

theorem loadFromJsonGo_cons (c : String) (d : List RVal)
    (rest : List (String × List RVal)) (st : Store)
    (acc : List (String × List RVal)) :
    loadFromJsonGo ((c, d) :: rest) st acc
      = match loadEntry st c d with
        | Except.error e => Except.error e
        | Except.ok (st', d') => loadFromJsonGo rest st' (acc ++ [(c, d')]) := rfl

/-- The builder succeeds exactly when every entry has three or four
fields. -/
theorem loadFromJsonGo_ok_iff : ∀ (raw : List (String × List RVal)) (st : Store)
    (acc : List (String × List RVal)),
    (loadFromJsonGo raw st acc).isOk = true
      ↔ ∀ p ∈ raw, p.2.length = 3 ∨ p.2.length = 4 := by
  intro raw
  induction raw with
  | nil =>
    intro st acc
    simp [loadFromJsonGo, Except.isOk, Except.toBool]
  | cons pr rest ih =>
    intro st acc
    obtain ⟨c, d⟩ := pr
    rw [loadFromJsonGo_cons]
    by_cases hlen : d.length = 3 ∨ d.length = 4
    · obtain ⟨st', heq⟩ := (loadEntry_shape st c d).1 hlen
      rw [heq]
      rw [ih]
      constructor
      · intro h p hp
        rcases List.mem_cons.mp hp with hp1 | hp2
        · rw [hp1]
          exact hlen
        · exact h p hp2
      · intro h p hp
        exact h p (List.mem_cons_of_mem _ hp)
    · obtain ⟨e, heq⟩ := (loadEntry_shape st c d).2 (by omega)
      rw [heq]
      refine iff_of_false (by simp [Except.isOk, Except.toBool]) ?_
      intro h
      exact hlen (h (c, d) (List.mem_cons_self _ _))

/-- The raw table left behind by a successful build: every three-field
entry has been extended in place with a null right component, all other
entries are untouched. -/
theorem loadFromJsonGo_raw : ∀ (raw : List (String × List RVal)) (st : Store)
    (acc : List (String × List RVal)) (st' : Store)
    (raw'' : List (String × List RVal)),
    loadFromJsonGo raw st acc = Except.ok (st', raw'') →
    raw'' = acc ++ raw.map
      (fun p => (p.1, if p.2.length = 3 then p.2 ++ [RVal.null] else p.2)) := by
  intro raw
  induction raw with
  | nil =>
    intro st acc st' raw'' h
    unfold loadFromJsonGo at h
    simp only [Except.ok.injEq, Prod.mk.injEq] at h
    rw [← h.2]
    simp
  | cons pr rest ih =>
    intro st acc st' raw'' h
    obtain ⟨c, d⟩ := pr
    rw [loadFromJsonGo_cons] at h
    cases heq : loadEntry st c d with
    | error e =>
      rw [heq] at h
      simp at h
    | ok pr' =>
      obtain ⟨st1, d'⟩ := pr'
      rw [heq] at h
      have hd' : d' = if d.length = 3 then d ++ [RVal.null] else d := by
        by_cases hlen : d.length = 3 ∨ d.length = 4
        · obtain ⟨st'', heq2⟩ := (loadEntry_shape st c d).1 hlen
          rw [heq] at heq2
          simp only [Except.ok.injEq, Prod.mk.injEq] at heq2
          exact heq2.2
        · obtain ⟨e, heq2⟩ := (loadEntry_shape st c d).2 (by omega)
          rw [heq] at heq2
          simp at heq2
      rw [ih st1 _ st' raw'' h, hd']
      simp

/-- Processing one entry never records a parent for a character other
than the entry's own key; an entry with three fields (null right
component) records no parent at all. -/
theorem loadEntry_parentless (st : Store) (c : String) (d : List RVal)
    (st' : Store) (d' : List RVal) (x : String)
    (h : loadEntry st c d = Except.ok (st', d')) (hcx : c ≠ x ∨ d.length = 3)
    (hp : ∀ n, lookupStore st (RVal.str x) = some n → n.parent = none) :
    ∀ n, lookupStore st' (RVal.str x) = some n → n.parent = none := by
  unfold loadEntry at h
  cases hpe : padEntry d with
  | error e =>
    rw [hpe] at h
    simp at h
  | ok d4 =>
    rw [hpe] at h
    rcases d4 with _ | ⟨ns, _ | ⟨ct, _ | ⟨l, _ | ⟨r, _ | ⟨z, zs⟩⟩⟩⟩⟩
    · simp at h
    · simp at h
    · simp at h
    · simp at h
    · simp only [] at h
      by_cases hfal : (rval_falsy (if l = RVal.str c then RVal.null else l)
          || rval_falsy r) = true
      · rw [if_pos hfal] at h
        simp only [Except.ok.injEq, Prod.mk.injEq] at h
        rw [← h.1]
        unfold setStrokes
        exact lookup_parent_none_updateNode _ _ _ _ (fun n => rfl)
          (lookup_parent_none_ensureNode _ _ _ hp)
      · rw [if_neg hfal] at h
        simp only [Except.ok.injEq, Prod.mk.injEq] at h
        have hcx' : c ≠ x := by
          rcases hcx with hcx | hlen
          · exact hcx
          · exfalso
            unfold padEntry at hpe
            rw [if_pos (by omega), if_neg (by omega)] at hpe
            simp only [Except.ok.injEq] at hpe
            have hr : r = RVal.null := by
              rcases d with _ | ⟨a1, _ | ⟨a2, _ | ⟨a3, _ | ⟨a4, rest⟩⟩⟩⟩
              · simp at hlen
              · simp at hlen
              · simp at hlen
              · simp only [List.cons_append, List.nil_append,
                  List.cons.injEq] at hpe
                exact hpe.2.2.2.1.symm
              · simp at hlen
            apply hfal
            rw [hr]
            simp [rval_falsy]
        have hxK : RVal.str x ≠ RVal.str c := by
          intro hh
          exact hcx' (by injection hh with hh2; exact hh2.symm)
        have hp2 := lookup_parent_none_ensureNode st (RVal.str c) (RVal.str x) hp
        have hp3 : ∀ n, lookupStore (setStrokes (ensureNode st (RVal.str c))
            (RVal.str c) ns) (RVal.str x) = some n → n.parent = none := by
          unfold setStrokes
          exact lookup_parent_none_updateNode _ _ _ _ (fun n => rfl) hp2
        have hp4 := lookup_parent_none_ensureNode _
          (if l = RVal.str c then RVal.null else l) (RVal.str x) hp3
        have hp5 := lookup_parent_none_ensureNode _ r (RVal.str x) hp4
        have hp6 : ∀ n, lookupStore (setParent (ensureNode (ensureNode
            (setStrokes (ensureNode st (RVal.str c)) (RVal.str c) ns)
            (if l = RVal.str c then RVal.null else l)) r) (RVal.str c)
            (ct, if l = RVal.str c then RVal.null else l, r))
            (RVal.str x) = some n → n.parent = none := by
          intro n hn
          unfold setParent at hn
          rw [lookup_updateNode_ne _ _ _ _ hxK] at hn
          exact hp5 n hn
        have hp7 : ∀ n, lookupStore (addDescL (setParent (ensureNode (ensureNode
            (setStrokes (ensureNode st (RVal.str c)) (RVal.str c) ns)
            (if l = RVal.str c then RVal.null else l)) r) (RVal.str c)
            (ct, if l = RVal.str c then RVal.null else l, r))
            (if l = RVal.str c then RVal.null else l) (RVal.str c))
            (RVal.str x) = some n → n.parent = none := by
          unfold addDescL
          exact lookup_parent_none_updateNode _ _ _ _ (fun n => rfl) hp6
        intro n hn
        rw [← h.1] at hn
        unfold addDescR at hn
        exact lookup_parent_none_updateNode _ r
          (fun n => { n with descR := listAddNew n.descR (RVal.str c) }) _
          (fun n => rfl) hp7 n hn
    · simp at h

/-- Processing one entry preserves existing keys and ensures the
entry's own character is a key afterwards. -/
theorem loadEntry_key_present (st : Store) (c : String) (d : List RVal)
    (st' : Store) (d' : List RVal)
    (h : loadEntry st c d = Except.ok (st', d')) :
    (∀ y, (lookupStore st y).isSome = true → (lookupStore st' y).isSome = true) ∧
    (lookupStore st' (RVal.str c)).isSome = true := by
  unfold loadEntry at h
  cases hpe : padEntry d with
  | error e =>
    rw [hpe] at h
    simp at h
  | ok d4 =>
    rw [hpe] at h
    rcases d4 with _ | ⟨ns, _ | ⟨ct, _ | ⟨l, _ | ⟨r, _ | ⟨z, zs⟩⟩⟩⟩⟩
    · simp at h
    · simp at h
    · simp at h
    · simp at h
    · simp only [] at h
      by_cases hfal : (rval_falsy (if l = RVal.str c then RVal.null else l)
          || rval_falsy r) = true
      · rw [if_pos hfal] at h
        simp only [Except.ok.injEq, Prod.mk.injEq] at h
        rw [← h.1]
        constructor
        · intro y hy
          unfold setStrokes
          exact lookup_isSome_updateNode _ _ _ y
            (lookup_isSome_ensureNode _ _ y hy)
        · unfold setStrokes
          exact lookup_isSome_updateNode _ _ _ _
            (lookup_ensureNode_self_isSome st (RVal.str c))
      · rw [if_neg hfal] at h
        simp only [Except.ok.injEq, Prod.mk.injEq] at h
        rw [← h.1]
        have step : ∀ y, (lookupStore st y).isSome = true →
            (lookupStore (addDescR (addDescL (setParent (ensureNode (ensureNode
              (setStrokes (ensureNode st (RVal.str c)) (RVal.str c) ns)
              (if l = RVal.str c then RVal.null else l)) r) (RVal.str c)
              (ct, if l = RVal.str c then RVal.null else l, r))
              (if l = RVal.str c then RVal.null else l) (RVal.str c)) r
              (RVal.str c)) y).isSome = true := by
          intro y hy
          unfold addDescR addDescL setParent setStrokes
          refine lookup_isSome_updateNode _ _ _ y ?_
          refine lookup_isSome_updateNode _ _ _ y ?_
          refine lookup_isSome_updateNode _ _ _ y ?_
          refine lookup_isSome_ensureNode _ _ y ?_
          refine lookup_isSome_ensureNode _ _ y ?_
          exact lookup_isSome_updateNode _ _ _ y
            (lookup_isSome_ensureNode _ _ y hy)
        refine ⟨step, ?_⟩
        unfold addDescR addDescL setParent
        refine lookup_isSome_updateNode _ _ _ _ ?_
        refine lookup_isSome_updateNode _ _ _ _ ?_
        refine lookup_isSome_updateNode _ _ _ _ ?_
        refine lookup_isSome_ensureNode _ _ _ ?_
        refine lookup_isSome_ensureNode _ _ _ ?_
        unfold setStrokes
        exact lookup_isSome_updateNode _ _ _ _
          (lookup_ensureNode_self_isSome st (RVal.str c))
    · simp at h

/-- Along a successful build, a character whose only entry in the rest
of the table (if any) has three fields never acquires a parent, and
once it is a key it stays one. -/
theorem loadFromJsonGo_parentless (x : String) :
    ∀ (raw : List (String × List RVal)) (st : Store)
      (acc : List (String × List RVal)) (st' : Store)
      (raw'' : List (String × List RVal)),
    loadFromJsonGo raw st acc = Except.ok (st', raw'') →
    (∀ p ∈ raw, p.1 = x → p.2.length = 3) →
    ((∀ n, lookupStore st (RVal.str x) = some n → n.parent = none) →
      ∀ n, lookupStore st' (RVal.str x) = some n → n.parent = none) ∧
    ((lookupStore st (RVal.str x)).isSome = true →
      (lookupStore st' (RVal.str x)).isSome = true) := by
  intro raw
  induction raw with
  | nil =>
    intro st acc st' raw'' h _
    unfold loadFromJsonGo at h
    simp only [Except.ok.injEq, Prod.mk.injEq] at h
    rw [← h.1]
    exact ⟨fun hp => hp, fun hs => hs⟩
  | cons pr rest ih =>
    intro st acc st' raw'' h hx
    obtain ⟨c, d⟩ := pr
    rw [loadFromJsonGo_cons] at h
    cases heq : loadEntry st c d with
    | error e =>
      rw [heq] at h
      simp at h
    | ok pr' =>
      obtain ⟨st1, d'⟩ := pr'
      rw [heq] at h
      have hcase : c ≠ x ∨ d.length = 3 := by
        by_cases hcx : c = x
        · exact Or.inr (hx (c, d) (List.mem_cons_self _ _) hcx)
        · exact Or.inl hcx
      obtain ⟨ih1, ih2⟩ := ih st1 _ st' raw'' h
        (fun p hp hpx => hx p (List.mem_cons_of_mem _ hp) hpx)
      refine ⟨fun hp => ih1 (loadEntry_parentless st c d st1 d' x heq hcase hp), ?_⟩
      intro hs
      exact ih2 ((loadEntry_key_present st c d st1 d' heq).1 (RVal.str x) hs)

/-- With unique keys, an entry's data is determined by its key. -/
theorem nodup_key_unique : ∀ (raw : List (String × List RVal)) (c : String)
    (e : List RVal), (raw.map Prod.fst).Nodup → (c, e) ∈ raw →
    ∀ p ∈ raw, p.1 = c → p.2 = e := by
  intro raw
  induction raw with
  | nil => intro c e _ hm; cases hm
  | cons q rest ih =>
    intro c e hnd hm p hp hpc
    rw [List.map_cons, List.nodup_cons] at hnd
    rcases List.mem_cons.mp hm with hm1 | hm2
    · rcases List.mem_cons.mp hp with hp1 | hp2
      · rw [hp1, ← hm1]
      · exfalso
        apply hnd.1
        rw [← hm1]
        simp only []
        rw [← hpc]
        exact List.mem_map_of_mem Prod.fst hp2
    · rcases List.mem_cons.mp hp with hp1 | hp2
      · exfalso
        apply hnd.1
        have hqc : q.1 = c := by rw [← hp1]; exact hpc
        rw [hqc]
        exact List.mem_map_of_mem Prod.fst hm2
      · exact ih c e hnd.2 hm2 p hp2 hpc

/-- A character keyed somewhere in the processed table ends up present
in the store. -/
theorem loadFromJsonGo_present (x : String) :
    ∀ (raw : List (String × List RVal)) (st : Store)
      (acc : List (String × List RVal)) (st' : Store)
      (raw'' : List (String × List RVal)),
    loadFromJsonGo raw st acc = Except.ok (st', raw'') →
    ((∃ e, (x, e) ∈ raw) ∨ (lookupStore st (RVal.str x)).isSome = true) →
    (lookupStore st' (RVal.str x)).isSome = true := by
  intro raw
  induction raw with
  | nil =>
    intro st acc st' raw'' h hx
    unfold loadFromJsonGo at h
    simp only [Except.ok.injEq, Prod.mk.injEq] at h
    rw [← h.1]
    rcases hx with ⟨e, he⟩ | hx
    · cases he
    · exact hx
  | cons pr rest ih =>
    intro st acc st' raw'' h hx
    obtain ⟨c, d⟩ := pr
    rw [loadFromJsonGo_cons] at h
    cases heq : loadEntry st c d with
    | error e =>
      rw [heq] at h
      simp at h
    | ok pr' =>
      obtain ⟨st1, d'⟩ := pr'
      rw [heq] at h
      rcases hx with ⟨e, he⟩ | hx
      · rcases List.mem_cons.mp he with he1 | he2
        · have hcx : c = x := by
            have := congrArg Prod.fst he1
            exact this.symm
          refine ih st1 _ st' raw'' h (Or.inr ?_)
          rw [← hcx]
          exact (loadEntry_key_present st c d st1 d' heq).2
        · exact ih st1 _ st' raw'' h (Or.inl ⟨e, he2⟩)
      · exact ih st1 _ st' raw'' h
          (Or.inr ((loadEntry_key_present st c d st1 d' heq).1 (RVal.str x) hx))

/-- C6 counterexample: a five-field entry aborts the build even though
no entry has fewer than three fields, so "fails if and only if some
entry has fewer than 3 fields" is wrong (the in-place destructuring
`[num_strokes, composition_type, left, right] = data` also fails on
over-long lists). -/
theorem load_from_json_five_field_counterexample :
    (load_from_json [("a", [RVal.nat 1, RVal.str "t", RVal.str "l",
        RVal.str "r", RVal.null])]).isOk = false ∧
    [RVal.nat 1, RVal.str "t", RVal.str "l", RVal.str "r", RVal.null].length = 5 := by
  exact ⟨by decide, by decide⟩

/-- C6 (amended): the build fails exactly when some entry has fewer
than three or more than four (scalar) fields; in particular a two-field
entry aborts the build, and on a successful build with unique keys a
three-field entry leaves its character present but parentless. -/
theorem load_from_json_error_characterisation :
    (∀ raw : List (String × List RVal),
      (load_from_json raw).isOk = false
        ↔ ∃ p ∈ raw, p.2.length < 3 ∨ 4 < p.2.length) ∧
    (∀ (raw : List (String × List RVal)) (c : String) (ns ct l : RVal)
        (st : Store) (raw' : List (String × List RVal)),
      (raw.map Prod.fst).Nodup →
      load_from_json raw = Except.ok (st, raw') →
      (c, [ns, ct, l]) ∈ raw →
      ∃ n, lookupStore st (RVal.str c) = some n ∧ n.parent = none) := by
  constructor
  · intro raw
    constructor
    · intro h
      have h2 : ¬ ∀ p ∈ raw, p.2.length = 3 ∨ p.2.length = 4 := by
        intro hall
        have hb : (loadFromJsonGo raw [] []).isOk = false := h
        rw [(loadFromJsonGo_ok_iff raw [] []).mpr hall] at hb
        exact Bool.noConfusion hb
      push_neg at h2
      obtain ⟨p, hp, hb⟩ := h2
      exact ⟨p, hp, by omega⟩
    · rintro ⟨p, hp, hb⟩
      cases hok : (load_from_json raw).isOk with
      | false => rfl
      | true =>
        have := (loadFromJsonGo_ok_iff raw [] []).mp hok p hp
        omega
  · intro raw c ns ct l st raw' hnd hok hmem
    have hall : ∀ p ∈ raw, p.1 = c → p.2.length = 3 := by
      intro p hp hpc
      rw [nodup_key_unique raw c [ns, ct, l] hnd hmem p hp hpc]
      rfl
    obtain ⟨h1, -⟩ := loadFromJsonGo_parentless c raw [] [] st raw' hok hall
    have hpres := loadFromJsonGo_present c raw [] [] st raw' hok
      (Or.inl ⟨[ns, ct, l], hmem⟩)
    have hnone := h1 (fun n hn => by simp [lookupStore] at hn)
    cases hl : lookupStore st (RVal.str c) with
    | none => rw [hl] at hpres; exact absurd hpres (by simp)
    | some n => exact ⟨n, rfl, hnone n hl⟩

/-- C6 witness: the characterisation applied to a two-field table (it
aborts) and to a three-field table (it builds, parentless). -/
theorem load_from_json_error_characterisation_witness :
    (load_from_json [("a", [RVal.nat 1, RVal.str "t"])]).isOk = false ∧
    (∃ n, lookupStore [(RVal.str "hao",
        (⟨none, [], [], RVal.nat 6⟩ : Node))] (RVal.str "hao")
      = some n ∧ n.parent = none) :=
  ⟨(load_from_json_error_characterisation.1 _).mpr
      ⟨("a", [RVal.nat 1, RVal.str "t"]), by decide, by decide⟩,
    load_from_json_error_characterisation.2
      [("hao", [RVal.nat 6, RVal.str "LR", RVal.str "nv"])] "hao"
      (RVal.nat 6) (RVal.str "LR") (RVal.str "nv")
      [(RVal.str "hao", ⟨none, [], [], RVal.nat 6⟩)]
      [("hao", [RVal.nat 6, RVal.str "LR", RVal.str "nv", RVal.null])]
      (by decide) (by rfl) (by decide)⟩

/-- C4 counterexample: building a table with a three-field entry
extends that entry's list in place with a null (the Python code does
`data.append(None)` on the list stored in the raw table), so the raw
table after the build differs from the original. -/
theorem load_from_json_mutation_counterexample :
    load_from_json [("hao", [RVal.nat 6, RVal.str "LR", RVal.str "nv"])]
      = Except.ok ([(RVal.str "hao", ⟨none, [], [], RVal.nat 6⟩)],
          [("hao", [RVal.nat 6, RVal.str "LR", RVal.str "nv", RVal.null])]) ∧
    [("hao", [RVal.nat 6, RVal.str "LR", RVal.str "nv", RVal.null])]
      ≠ [("hao", [RVal.nat 6, RVal.str "LR", RVal.str "nv"])] :=
  ⟨by rfl, by decide⟩

/-- C4 (amended): the builder's only effect on the raw table is the
padding of three-field entries: after a successful build every
three-field entry has been extended in place with a null right
component and every other entry (necessarily four fields) is unchanged;
the mapping's keys and entry order are untouched. -/
theorem load_from_json_raw_mutation (raw : List (String × List RVal))
    (st : Store) (raw' : List (String × List RVal))
    (h : load_from_json raw = Except.ok (st, raw')) :
    raw' = raw.map
      (fun p => (p.1, if p.2.length = 3 then p.2 ++ [RVal.null] else p.2)) := by
  have h2 := loadFromJsonGo_raw raw [] [] st raw' h
  simpa using h2

/-- C4 witness: the raw-table effect computed on a mixed table. -/
theorem load_from_json_raw_mutation_witness :
    [("hao", [RVal.nat 6, RVal.str "LR", RVal.str "nv", RVal.null])]
      = [("hao", [RVal.nat 6, RVal.str "LR", RVal.str "nv"])].map
          (fun p => (p.1, if p.2.length = 3 then p.2 ++ [RVal.null] else p.2)) :=
  load_from_json_raw_mutation
    [("hao", [RVal.nat 6, RVal.str "LR", RVal.str "nv"])]
    [(RVal.str "hao", ⟨none, [], [], RVal.nat 6⟩)]
    [("hao", [RVal.nat 6, RVal.str "LR", RVal.str "nv", RVal.null])]
    (by rfl)

/-! ## The builder's descendant-set invariant -/

theorem mem_of_mem_listAddNew (l : List RVal) (v c : RVal)
    (h : c ∈ listAddNew l v) : c ∈ l ∨ c = v := by
  unfold listAddNew at h
  by_cases hc : l.contains v
  · rw [if_pos hc] at h
    exact Or.inl h
  · rw [if_neg hc] at h
    rcases List.mem_append.mp h with h1 | h2
    · exact Or.inl h1
    · exact Or.inr (List.mem_singleton.mp h2)

theorem mem_updateNode (st : Store) (k : RVal) (f : Node → Node)
    (p' : RVal × Node) (h : p' ∈ updateNode st k f) :
    ∃ p ∈ st, p' = if p.1 = k then (p.1, f p.2) else p := by
  unfold updateNode at h
  obtain ⟨p, hp, he⟩ := List.mem_map.mp h
  exact ⟨p, hp, he.symm⟩

theorem descOK_ensureNode (st : Store) (k : RVal)
    (hd : ∀ p ∈ st, ∀ c, (c ∈ p.2.descL ∨ c ∈ p.2.descR) →
      ∃ n, lookupStore st c = some n ∧ n.parent.isSome = true) :
    ∀ p ∈ ensureNode st k, ∀ c, (c ∈ p.2.descL ∨ c ∈ p.2.descR) →
      ∃ n, lookupStore (ensureNode st k) c = some n ∧ n.parent.isSome = true := by
  intro p hp c hc
  unfold ensureNode at hp ⊢
  by_cases hk : storeHasKey st k
  · rw [if_pos hk] at hp ⊢
    exact hd p hp c hc
  · rw [if_neg hk] at hp ⊢
    rcases List.mem_append.mp hp with hp1 | hp2
    · obtain ⟨n, hn, hs⟩ := hd p hp1 c hc
      exact ⟨n, lookup_append_of_some st _ c n hn, hs⟩
    · have : p = (k, dummyNode) := List.mem_singleton.mp hp2
      rw [this] at hc
      rcases hc with hc | hc <;> cases hc

theorem descOK_updateNode (st : Store) (k : RVal) (f : Node → Node)
    (hfd : ∀ n, (f n).descL = n.descL ∧ (f n).descR = n.descR)
    (hfp : ∀ n, n.parent.isSome = true → (f n).parent.isSome = true)
    (hd : ∀ p ∈ st, ∀ c, (c ∈ p.2.descL ∨ c ∈ p.2.descR) →
      ∃ n, lookupStore st c = some n ∧ n.parent.isSome = true) :
    ∀ p ∈ updateNode st k f, ∀ c, (c ∈ p.2.descL ∨ c ∈ p.2.descR) →
      ∃ n, lookupStore (updateNode st k f) c = some n ∧ n.parent.isSome = true := by
  intro p' hp' c hc
  obtain ⟨p, hp, he⟩ := mem_updateNode st k f p' hp'
  have hcp : c ∈ p.2.descL ∨ c ∈ p.2.descR := by
    by_cases hpk : p.1 = k
    · rw [he, if_pos hpk] at hc
      simp only [] at hc
      rcases hc with hc | hc
      · rw [(hfd p.2).1] at hc
        exact Or.inl hc
      · rw [(hfd p.2).2] at hc
        exact Or.inr hc
    · rw [he, if_neg hpk] at hc
      exact hc
  exact lookup_parent_some_updateNode st k f c hfp (hd p hp c hcp)

theorem descOK_addDescL (st : Store) (t c0 : RVal)
    (hc0 : ∃ n, lookupStore st c0 = some n ∧ n.parent.isSome = true)
    (hd : ∀ p ∈ st, ∀ c, (c ∈ p.2.descL ∨ c ∈ p.2.descR) →
      ∃ n, lookupStore st c = some n ∧ n.parent.isSome = true) :
    ∀ p ∈ addDescL st t c0, ∀ c, (c ∈ p.2.descL ∨ c ∈ p.2.descR) →
      ∃ n, lookupStore (addDescL st t c0) c = some n ∧ n.parent.isSome = true := by
  intro p' hp' c hc
  unfold addDescL at hp' ⊢
  obtain ⟨p, hp, he⟩ := mem_updateNode st t _ p' hp'
  have hcp : (c ∈ p.2.descL ∨ c ∈ p.2.descR) ∨ c = c0 := by
    by_cases hpk : p.1 = t
    · rw [he, if_pos hpk] at hc
      simp only [] at hc
      rcases hc with hc | hc
      · rcases mem_of_mem_listAddNew p.2.descL c0 c hc with h1 | h2
        · exact Or.inl (Or.inl h1)
        · exact Or.inr h2
      · exact Or.inl (Or.inr hc)
    · rw [he, if_neg hpk] at hc
      exact Or.inl hc
  rcases hcp with hcp | hcp
  · exact lookup_parent_some_updateNode st t _ c (fun n hn => hn) (hd p hp c hcp)
  · rw [hcp]
    exact lookup_parent_some_updateNode st t _ c0 (fun n hn => hn) hc0

theorem descOK_addDescR (st : Store) (t c0 : RVal)
    (hc0 : ∃ n, lookupStore st c0 = some n ∧ n.parent.isSome = true)
    (hd : ∀ p ∈ st, ∀ c, (c ∈ p.2.descL ∨ c ∈ p.2.descR) →
      ∃ n, lookupStore st c = some n ∧ n.parent.isSome = true) :
    ∀ p ∈ addDescR st t c0, ∀ c, (c ∈ p.2.descL ∨ c ∈ p.2.descR) →
      ∃ n, lookupStore (addDescR st t c0) c = some n ∧ n.parent.isSome = true := by
  intro p' hp' c hc
  unfold addDescR at hp' ⊢
  obtain ⟨p, hp, he⟩ := mem_updateNode st t _ p' hp'
  have hcp : (c ∈ p.2.descL ∨ c ∈ p.2.descR) ∨ c = c0 := by
    by_cases hpk : p.1 = t
    · rw [he, if_pos hpk] at hc
      simp only [] at hc
      rcases hc with hc | hc
      · exact Or.inl (Or.inl hc)
      · rcases mem_of_mem_listAddNew p.2.descR c0 c hc with h1 | h2
        · exact Or.inl (Or.inr h1)
        · exact Or.inr h2
    · rw [he, if_neg hpk] at hc
      exact Or.inl hc
  rcases hcp with hcp | hcp
  · exact lookup_parent_some_updateNode st t _ c (fun n hn => hn) (hd p hp c hcp)
  · rw [hcp]
    exact lookup_parent_some_updateNode st t _ c0 (fun n hn => hn) hc0

/-- Processing one raw entry preserves the invariant that every member
of a descendant set is a key whose node has a parent triple: the
character is added to the two descendant sets only right after its
parent triple is recorded. -/
theorem loadEntry_descOK (st : Store) (c : String) (d : List RVal)
    (st' : Store) (d' : List RVal)
    (h : loadEntry st c d = Except.ok (st', d'))
    (hd : ∀ p ∈ st, ∀ x, (x ∈ p.2.descL ∨ x ∈ p.2.descR) →
      ∃ n, lookupStore st x = some n ∧ n.parent.isSome = true) :
    ∀ p ∈ st', ∀ x, (x ∈ p.2.descL ∨ x ∈ p.2.descR) →
      ∃ n, lookupStore st' x = some n ∧ n.parent.isSome = true := by
  unfold loadEntry at h
  cases hpe : padEntry d with
  | error e =>
    rw [hpe] at h
    simp at h
  | ok d4 =>
    rw [hpe] at h
    rcases d4 with _ | ⟨ns, _ | ⟨ct, _ | ⟨l, _ | ⟨r, _ | ⟨z, zs⟩⟩⟩⟩⟩
    · simp at h
    · simp at h
    · simp at h
    · simp at h
    · simp only [] at h
      by_cases hfal : (rval_falsy (if l = RVal.str c then RVal.null else l)
          || rval_falsy r) = true
      · rw [if_pos hfal] at h
        simp only [Except.ok.injEq, Prod.mk.injEq] at h
        rw [← h.1]
        unfold setStrokes
        exact descOK_updateNode _ _ _ (fun n => ⟨rfl, rfl⟩) (fun n hn => hn)
          (descOK_ensureNode st (RVal.str c) hd)
      · rw [if_neg hfal] at h
        simp only [Except.ok.injEq, Prod.mk.injEq] at h
        rw [← h.1]
        have hd2 : ∀ p ∈ setStrokes (ensureNode st (RVal.str c)) (RVal.str c) ns,
            ∀ x, (x ∈ p.2.descL ∨ x ∈ p.2.descR) →
            ∃ n, lookupStore (setStrokes (ensureNode st (RVal.str c))
              (RVal.str c) ns) x = some n ∧ n.parent.isSome = true := by
          unfold setStrokes
          exact descOK_updateNode _ _ _ (fun n => ⟨rfl, rfl⟩) (fun n hn => hn)
            (descOK_ensureNode st (RVal.str c) hd)
        have hd3 := descOK_ensureNode _ (if l = RVal.str c then RVal.null else l) hd2
        have hd4 := descOK_ensureNode _ r hd3
        have hd5 : ∀ p ∈ setParent (ensureNode (ensureNode
            (setStrokes (ensureNode st (RVal.str c)) (RVal.str c) ns)
            (if l = RVal.str c then RVal.null else l)) r) (RVal.str c)
            (ct, if l = RVal.str c then RVal.null else l, r),
            ∀ x, (x ∈ p.2.descL ∨ x ∈ p.2.descR) →
            ∃ n, lookupStore (setParent (ensureNode (ensureNode
              (setStrokes (ensureNode st (RVal.str c)) (RVal.str c) ns)
              (if l = RVal.str c then RVal.null else l)) r) (RVal.str c)
              (ct, if l = RVal.str c then RVal.null else l, r)) x
              = some n ∧ n.parent.isSome = true := by
          unfold setParent
          exact descOK_updateNode _ _ _ (fun n => ⟨rfl, rfl⟩) (fun n _ => rfl) hd4
        have hpres : (lookupStore (ensureNode (ensureNode
            (setStrokes (ensureNode st (RVal.str c)) (RVal.str c) ns)
            (if l = RVal.str c then RVal.null else l)) r)
            (RVal.str c)).isSome = true := by
          refine lookup_isSome_ensureNode _ _ _ ?_
          refine lookup_isSome_ensureNode _ _ _ ?_
          unfold setStrokes
          exact lookup_isSome_updateNode _ _ _ _
            (lookup_ensureNode_self_isSome st (RVal.str c))
        have hc0 : ∃ n, lookupStore (setParent (ensureNode (ensureNode
            (setStrokes (ensureNode st (RVal.str c)) (RVal.str c) ns)
            (if l = RVal.str c then RVal.null else l)) r) (RVal.str c)
            (ct, if l = RVal.str c then RVal.null else l, r)) (RVal.str c)
            = some n ∧ n.parent.isSome = true := by
          unfold setParent
          rw [lookup_updateNode_eq]
          cases hl : lookupStore (ensureNode (ensureNode
              (setStrokes (ensureNode st (RVal.str c)) (RVal.str c) ns)
              (if l = RVal.str c then RVal.null else l)) r) (RVal.str c) with
          | none => rw [hl] at hpres; exact absurd hpres (by simp)
          | some n4 => exact ⟨_, rfl, rfl⟩
        have hd6 := descOK_addDescL _ (if l = RVal.str c then RVal.null else l)
          (RVal.str c) hc0 hd5
        have hc0' : ∃ n, lookupStore (addDescL (setParent (ensureNode (ensureNode
            (setStrokes (ensureNode st (RVal.str c)) (RVal.str c) ns)
            (if l = RVal.str c then RVal.null else l)) r) (RVal.str c)
            (ct, if l = RVal.str c then RVal.null else l, r))
            (if l = RVal.str c then RVal.null else l) (RVal.str c)) (RVal.str c)
            = some n ∧ n.parent.isSome = true := by
          unfold addDescL
          exact lookup_parent_some_updateNode _ _ _ _ (fun n hn => hn) hc0
        exact descOK_addDescR _ r (RVal.str c) hc0' hd6
    · simp at h

/-- The builder's fold preserves the descendant-set invariant. -/
theorem loadFromJsonGo_descOK : ∀ (raw : List (String × List RVal)) (st : Store)
    (acc : List (String × List RVal)) (st' : Store)
    (raw'' : List (String × List RVal)),
    loadFromJsonGo raw st acc = Except.ok (st', raw'') →
    (∀ p ∈ st, ∀ x, (x ∈ p.2.descL ∨ x ∈ p.2.descR) →
      ∃ n, lookupStore st x = some n ∧ n.parent.isSome = true) →
    ∀ p ∈ st', ∀ x, (x ∈ p.2.descL ∨ x ∈ p.2.descR) →
      ∃ n, lookupStore st' x = some n ∧ n.parent.isSome = true := by
  intro raw
  induction raw with
  | nil =>
    intro st acc st' raw'' h hd
    unfold loadFromJsonGo at h
    simp only [Except.ok.injEq, Prod.mk.injEq] at h
    rw [← h.1]
    exact hd
  | cons pr rest ih =>
    intro st acc st' raw'' h hd
    obtain ⟨c, d⟩ := pr
    rw [loadFromJsonGo_cons] at h
    cases heq : loadEntry st c d with
    | error e =>
      rw [heq] at h
      simp at h
    | ok pr' =>
      obtain ⟨st1, d'⟩ := pr'
      rw [heq] at h
      exact ih st1 _ st' raw'' h (loadEntry_descOK st c d st1 d' heq hd)

/-- C10: every store the builder produces satisfies that each member
of any node's descendant sets is itself a key of the store whose node
carries a parent triple; consequently the search's read of a sibling
candidate's composition type (`parent[COMPOSITION_TYPE_INDEX]` in
`process_descendant`) always finds one on a built store. -/
theorem load_from_json_descendant_invariant (raw : List (String × List RVal))
    (st : Store) (raw' : List (String × List RVal))
    (h : load_from_json raw = Except.ok (st, raw')) :
    ∀ p ∈ st, ∀ c, (c ∈ p.2.descL ∨ c ∈ p.2.descR) →
    ∃ n, lookupStore st c = some n ∧ n.parent.isSome = true ∧
      ∃ ct0, (getNode st c).parent.map (fun t => t.1) = some ct0 := by
  have hd := loadFromJsonGo_descOK raw [] [] st raw' h
    (by intro p hp; cases hp)
  intro p hp c hc
  obtain ⟨n, hn, hs⟩ := hd p hp c hc
  refine ⟨n, hn, hs, ?_⟩
  have hg : getNode st c = n := by rw [getNode, hn]; rfl
  rw [hg]
  cases hpp : n.parent with
  | none => rw [hpp] at hs; exact absurd hs (by simp)
  | some t => exact ⟨t.1, rfl⟩

/-- C10 witness: the invariant applied to `hao` inside the descendant
set of `nv` in the built `hao`/`ru` store. -/
theorem load_from_json_descendant_invariant_witness :
    ∃ n, lookupStore storeHao (RVal.str "hao") = some n ∧
      n.parent.isSome = true ∧
      ∃ ct0, (getNode storeHao (RVal.str "hao")).parent.map (fun t => t.1)
        = some ct0 :=
  load_from_json_descendant_invariant rawHao storeHao
    [("hao", [RVal.nat 6, RVal.str "LR", RVal.str "nv", RVal.str "zi"]),
     ("ru", [RVal.nat 6, RVal.str "LR", RVal.str "nv", RVal.str "kou"])]
    (by rfl)
    (RVal.str "nv", getNode storeHao (RVal.str "nv")) (by decide)
    (RVal.str "hao") (Or.inl (by decide))

/-! ## Lemmas about the whole-graph enumeration -/

theorem mem_insertSorted (le : RVal → RVal → Bool) (v x : RVal) :
    ∀ m : List RVal, x ∈ insertSorted le v m ↔ x ∈ m ∨ x = v := by
  intro m
  induction m with
  | nil => simp [insertSorted]
  | cons a t ih =>
    simp only [insertSorted]
    by_cases h : le a v = true
    · rw [if_pos h]
      simp only [List.mem_cons, ih]
      tauto
    · rw [if_neg h]
      simp only [List.mem_cons]
      tauto

theorem mem_stroke_sort_fold (store : Store) (x : RVal) :
    ∀ (l acc : List RVal),
      x ∈ l.foldl (fun acc v => insertSorted (strokeLe store) v acc) acc
        ↔ x ∈ acc ∨ x ∈ l := by
  intro l
  induction l with
  | nil => intro acc; simp
  | cons a t ih =>
    intro acc
    rw [List.foldl_cons, ih, mem_insertSorted]
    simp only [List.mem_cons]
    tauto

theorem mem_stroke_sort (store : Store) (l : List RVal) (x : RVal) :
    x ∈ stroke_sort store l ↔ x ∈ l := by
  unfold stroke_sort
  rw [mem_stroke_sort_fold]
  simp

theorem exploreSpec_seen_step (store : Store) (wl : Option (List RVal))
    (seen lq rq lq' rq' : List RVal) (mode mode' : Bool) (v : RVal)
    (hv : v ∈ seen)
    (heq : explore_lr_bfs store wl seen lq rq mode
         = explore_lr_bfs store wl seen lq' rq' mode')
    (hql : ∀ x ∈ lq, x = v ∨ x ∈ lq')
    (hqr : ∀ x ∈ rq, x = v ∨ x ∈ rq')
    (ih : ExploreSpec store wl seen lq' rq' mode') :
    ExploreSpec store wl seen lq rq mode := by
  simp only [ExploreSpec] at ih ⊢
  rw [heq]
  obtain ⟨ih1, ih2, ih3, ih4, ih5, ih6, ih7, ih8⟩ := ih
  refine ⟨ih1, ?_, ?_, ih4, ih5, ih6, ih7, ih8⟩
  · intro x hx
    rcases hql x hx with h | h
    · rw [h]; exact ih1 v hv
    · exact ih2 x h
  · intro x hx
    rcases hqr x hx with h | h
    · rw [h]; exact ih1 v hv
    · exact ih3 x h

theorem exploreSpec_new_step (store : Store) (wl : Option (List RVal))
    (seen lq rq lq' rq' : List RVal) (mode mode' : Bool) (v : RVal)
    (hv : v ∉ seen)
    (hc : (wlContains wl v && !rval_falsy (getNode store v).strokes) = true)
    (heq : explore_lr_bfs store wl seen lq rq mode
         = (v :: (explore_lr_bfs store wl (v :: seen) lq' rq' mode').1,
            (explore_lr_bfs store wl (v :: seen) lq' rq' mode').2))
    (hql : ∀ x ∈ lq, x = v ∨ x ∈ lq')
    (hqr : ∀ x ∈ rq, x = v ∨ x ∈ rq')
    (hdl : ∀ c ∈ (getNode store v).descL, c ∈ lq' ∨ c ∈ rq')
    (hdr : ∀ c ∈ (getNode store v).descR, c ∈ lq' ∨ c ∈ rq')
    (ih : ExploreSpec store wl (v :: seen) lq' rq' mode') :
    ExploreSpec store wl seen lq rq mode := by
  simp only [ExploreSpec] at ih ⊢
  obtain ⟨ih1, ih2, ih3, ih4, ih5, ih6, ih7, ih8⟩ := ih
  rw [heq]
  have hc1 : wlContains wl v = true := by
    cases h1 : wlContains wl v
    · rw [h1] at hc; simp at hc
    · rfl
  have hc2' : rval_falsy (getNode store v).strokes = false := by
    cases hb : rval_falsy (getNode store v).strokes
    · rfl
    · rw [hb] at hc; simp at hc
  have hvseen : v ∈ (explore_lr_bfs store wl (v :: seen) lq' rq' mode').2 :=
    ih1 v (List.mem_cons_self v seen)
  refine ⟨?_, ?_, ?_, ?_, ?_, ?_, ?_, ?_⟩
  · intro x hx
    exact ih1 x (List.mem_cons_of_mem v hx)
  · intro x hx
    rcases hql x hx with h | h
    · rw [h]; exact hvseen
    · exact ih2 x h
  · intro x hx
    rcases hqr x hx with h | h
    · rw [h]; exact hvseen
    · exact ih3 x h
  · intro y hy
    rcases List.mem_cons.mp hy with h | h
    · subst h
      exact ⟨hv, hvseen, hc1, hc2'⟩
    · obtain ⟨g1, g2, g3, g4⟩ := ih4 y h
      exact ⟨fun hys => g1 (List.mem_cons_of_mem v hys), g2, g3, g4⟩
  · refine List.nodup_cons.mpr ⟨?_, ih5⟩
    intro hvm
    exact (ih4 v hvm).1 (List.mem_cons_self v seen)
  · intro x hx
    rcases ih6 x hx with hxs | hcl
    · rcases List.mem_cons.mp hxs with h | h
      · subst h
        refine Or.inr ⟨?_, ?_⟩
        · intro c hcm
          rcases hdl c hcm with h2 | h2
          · exact ih2 c h2
          · exact ih3 c h2
        · intro c hcm
          rcases hdr c hcm with h2 | h2
          · exact ih2 c h2
          · exact ih3 c h2
      · exact Or.inl h
    · exact Or.inr hcl
  · intro hnd
    exact ih7 (List.nodup_cons.mpr ⟨hv, hnd⟩)
  · intro x hx hxs hw hf
    by_cases hxv : x = v
    · rw [hxv]
      exact List.mem_cons_self v _
    · have hxs' : x ∉ v :: seen := by
        intro hmem
        rcases List.mem_cons.mp hmem with h | h
        · exact hxv h
        · exact hxs h
      exact List.mem_cons_of_mem v (ih8 x hx hxs' hw hf)

theorem exploreSpec_skip_step (store : Store) (wl : Option (List RVal))
    (seen lq rq lq' rq' : List RVal) (mode mode' : Bool) (v : RVal)
    (hv : v ∉ seen)
    (hc : ¬(wlContains wl v && !rval_falsy (getNode store v).strokes) = true)
    (heq : explore_lr_bfs store wl seen lq rq mode
         = explore_lr_bfs store wl (v :: seen) lq' rq' mode')
    (hql : ∀ x ∈ lq, x = v ∨ x ∈ lq')
    (hqr : ∀ x ∈ rq, x = v ∨ x ∈ rq')
    (hdl : ∀ c ∈ (getNode store v).descL, c ∈ lq' ∨ c ∈ rq')
    (hdr : ∀ c ∈ (getNode store v).descR, c ∈ lq' ∨ c ∈ rq')
    (ih : ExploreSpec store wl (v :: seen) lq' rq' mode') :
    ExploreSpec store wl seen lq rq mode := by
  simp only [ExploreSpec] at ih ⊢
  obtain ⟨ih1, ih2, ih3, ih4, ih5, ih6, ih7, ih8⟩ := ih
  rw [heq]
  have hvseen : v ∈ (explore_lr_bfs store wl (v :: seen) lq' rq' mode').2 :=
    ih1 v (List.mem_cons_self v seen)
  refine ⟨?_, ?_, ?_, ?_, ih5, ?_, ?_, ?_⟩
  · intro x hx
    exact ih1 x (List.mem_cons_of_mem v hx)
  · intro x hx
    rcases hql x hx with h | h
    · rw [h]; exact hvseen
    · exact ih2 x h
  · intro x hx
    rcases hqr x hx with h | h
    · rw [h]; exact hvseen
    · exact ih3 x h
  · intro y hy
    obtain ⟨g1, g2, g3, g4⟩ := ih4 y hy
    exact ⟨fun hys => g1 (List.mem_cons_of_mem v hys), g2, g3, g4⟩
  · intro x hx
    rcases ih6 x hx with hxs | hcl
    · rcases List.mem_cons.mp hxs with h | h
      · subst h
        refine Or.inr ⟨?_, ?_⟩
        · intro c hcm
          rcases hdl c hcm with h2 | h2
          · exact ih2 c h2
          · exact ih3 c h2
        · intro c hcm
          rcases hdr c hcm with h2 | h2
          · exact ih2 c h2
          · exact ih3 c h2
      · exact Or.inl h
    · exact Or.inr hcl
  · intro hnd
    exact ih7 (List.nodup_cons.mpr ⟨hv, hnd⟩)
  · intro x hx hxs hw hf
    by_cases hxv : x = v
    · subst hxv
      exact absurd (by rw [hw, hf]; rfl) hc
    · have hxs' : x ∉ v :: seen := by
        intro hmem
        rcases List.mem_cons.mp hmem with h | h
        · exact hxv h
        · exact hxs h
      exact ih8 x hx hxs' hw hf

theorem explore_lr_bfs_spec (store : Store) (wl : Option (List RVal))
    (seen lq rq : List RVal) (mode : Bool) :
    ExploreSpec store wl seen lq rq mode := by
  induction seen, lq, rq, mode using explore_lr_bfs.induct store wl with
  | case1 seen v lt rq hv ih =>
    refine exploreSpec_seen_step store wl seen (v :: lt) rq lt rq true true v hv
      ?_ ?_ ?_ ih
    · simp only [explore_lr_bfs]
      rw [if_pos hv]
    · intro x hx
      rcases List.mem_cons.mp hx with h | h
      · exact Or.inl h
      · exact Or.inr h
    · intro x hx
      exact Or.inr hx
  | case2 seen v lt rq hv n hc ih =>
    have hc' : (wlContains wl v && !rval_falsy (getNode store v).strokes) = true := hc
    have ih' : ExploreSpec store wl (v :: seen)
        (lt ++ stroke_sort store (getNode store v).descL)
        (rq ++ stroke_sort store (getNode store v).descR) true := ih
    refine exploreSpec_new_step store wl seen (v :: lt) rq
      (lt ++ stroke_sort store (getNode store v).descL)
      (rq ++ stroke_sort store (getNode store v).descR) true true v hv hc'
      ?_ ?_ ?_ ?_ ?_ ih'
    · simp only [explore_lr_bfs]
      rw [if_neg hv, if_pos hc']
    · intro x hx
      rcases List.mem_cons.mp hx with h | h
      · exact Or.inl h
      · exact Or.inr (List.mem_append_left _ h)
    · intro x hx
      exact Or.inr (List.mem_append_left _ hx)
    · intro c hcm
      exact Or.inl (List.mem_append_right lt ((mem_stroke_sort store _ c).mpr hcm))
    · intro c hcm
      exact Or.inr (List.mem_append_right rq ((mem_stroke_sort store _ c).mpr hcm))
  | case3 seen v lt rq hv n hc ih =>
    have hc' : ¬(wlContains wl v && !rval_falsy (getNode store v).strokes) = true := hc
    have ih' : ExploreSpec store wl (v :: seen)
        (lt ++ stroke_sort store (getNode store v).descL)
        (rq ++ stroke_sort store (getNode store v).descR) true := ih
    refine exploreSpec_skip_step store wl seen (v :: lt) rq
      (lt ++ stroke_sort store (getNode store v).descL)
      (rq ++ stroke_sort store (getNode store v).descR) true true v hv hc'
      ?_ ?_ ?_ ?_ ?_ ih'
    · simp only [explore_lr_bfs]
      rw [if_neg hv, if_neg hc']
    · intro x hx
      rcases List.mem_cons.mp hx with h | h
      · exact Or.inl h
      · exact Or.inr (List.mem_append_left _ h)
    · intro x hx
      exact Or.inr (List.mem_append_left _ hx)
    · intro c hcm
      exact Or.inl (List.mem_append_right lt ((mem_stroke_sort store _ c).mpr hcm))
    · intro c hcm
      exact Or.inr (List.mem_append_right rq ((mem_stroke_sort store _ c).mpr hcm))
  | case4 seen v rt hv ih =>
    refine exploreSpec_seen_step store wl seen [] (v :: rt) [] rt true false v hv
      ?_ ?_ ?_ ih
    · simp only [explore_lr_bfs]
      rw [if_pos hv]
    · intro x hx
      exact absurd hx (List.not_mem_nil x)
    · intro x hx
      rcases List.mem_cons.mp hx with h | h
      · exact Or.inl h
      · exact Or.inr h
  | case5 seen v rt hv n hc ih =>
    have hc' : (wlContains wl v && !rval_falsy (getNode store v).strokes) = true := hc
    have ih' : ExploreSpec store wl (v :: seen)
        (stroke_sort store (getNode store v).descL)
        (rt ++ stroke_sort store (getNode store v).descR) false := ih
    refine exploreSpec_new_step store wl seen [] (v :: rt)
      (stroke_sort store (getNode store v).descL)
      (rt ++ stroke_sort store (getNode store v).descR) true false v hv hc'
      ?_ ?_ ?_ ?_ ?_ ih'
    · simp only [explore_lr_bfs]
      rw [if_neg hv, if_pos hc']
    · intro x hx
      exact absurd hx (List.not_mem_nil x)
    · intro x hx
      rcases List.mem_cons.mp hx with h | h
      · exact Or.inl h
      · exact Or.inr (List.mem_append_left _ h)
    · intro c hcm
      exact Or.inl ((mem_stroke_sort store _ c).mpr hcm)
    · intro c hcm
      exact Or.inr (List.mem_append_right rt ((mem_stroke_sort store _ c).mpr hcm))
  | case6 seen v rt hv n hc ih =>
    have hc' : ¬(wlContains wl v && !rval_falsy (getNode store v).strokes) = true := hc
    have ih' : ExploreSpec store wl (v :: seen)
        (stroke_sort store (getNode store v).descL)
        (rt ++ stroke_sort store (getNode store v).descR) false := ih
    refine exploreSpec_skip_step store wl seen [] (v :: rt)
      (stroke_sort store (getNode store v).descL)
      (rt ++ stroke_sort store (getNode store v).descR) true false v hv hc'
      ?_ ?_ ?_ ?_ ?_ ih'
    · simp only [explore_lr_bfs]
      rw [if_neg hv, if_neg hc']
    · intro x hx
      exact absurd hx (List.not_mem_nil x)
    · intro x hx
      rcases List.mem_cons.mp hx with h | h
      · exact Or.inl h
      · exact Or.inr (List.mem_append_left _ h)
    · intro c hcm
      exact Or.inl ((mem_stroke_sort store _ c).mpr hcm)
    · intro c hcm
      exact Or.inr (List.mem_append_right rt ((mem_stroke_sort store _ c).mpr hcm))
  | case7 seen =>
    simp only [ExploreSpec]
    have heq : explore_lr_bfs store wl seen [] [] true = ([], seen) := by
      simp only [explore_lr_bfs]
    rw [heq]
    refine ⟨fun x hx => hx, ?_, ?_, ?_, List.nodup_nil, ?_, fun h => h, ?_⟩
    · intro x hx
      exact absurd hx (List.not_mem_nil x)
    · intro x hx
      exact absurd hx (List.not_mem_nil x)
    · intro y hy
      exact absurd hy (List.not_mem_nil y)
    · intro x hx
      exact Or.inl hx
    · intro x hx hxs
      exact absurd hx hxs
  | case8 seen lq v rt hv ih =>
    refine exploreSpec_seen_step store wl seen lq (v :: rt) lq rt false false v hv
      ?_ ?_ ?_ ih
    · simp only [explore_lr_bfs]
      rw [if_pos hv]
    · intro x hx
      exact Or.inr hx
    · intro x hx
      rcases List.mem_cons.mp hx with h | h
      · exact Or.inl h
      · exact Or.inr h
  | case9 seen lq v rt hv n hc ih =>
    have hc' : (wlContains wl v && !rval_falsy (getNode store v).strokes) = true := hc
    have ih' : ExploreSpec store wl (v :: seen)
        (lq ++ stroke_sort store (getNode store v).descL)
        (rt ++ stroke_sort store (getNode store v).descR) false := ih
    refine exploreSpec_new_step store wl seen lq (v :: rt)
      (lq ++ stroke_sort store (getNode store v).descL)
      (rt ++ stroke_sort store (getNode store v).descR) false false v hv hc'
      ?_ ?_ ?_ ?_ ?_ ih'
    · simp only [explore_lr_bfs]
      rw [if_neg hv, if_pos hc']
    · intro x hx
      exact Or.inr (List.mem_append_left _ hx)
    · intro x hx
      rcases List.mem_cons.mp hx with h | h
      · exact Or.inl h
      · exact Or.inr (List.mem_append_left _ h)
    · intro c hcm
      exact Or.inl (List.mem_append_right lq ((mem_stroke_sort store _ c).mpr hcm))
    · intro c hcm
      exact Or.inr (List.mem_append_right rt ((mem_stroke_sort store _ c).mpr hcm))
  | case10 seen lq v rt hv n hc ih =>
    have hc' : ¬(wlContains wl v && !rval_falsy (getNode store v).strokes) = true := hc
    have ih' : ExploreSpec store wl (v :: seen)
        (lq ++ stroke_sort store (getNode store v).descL)
        (rt ++ stroke_sort store (getNode store v).descR) false := ih
    refine exploreSpec_skip_step store wl seen lq (v :: rt)
      (lq ++ stroke_sort store (getNode store v).descL)
      (rt ++ stroke_sort store (getNode store v).descR) false false v hv hc'
      ?_ ?_ ?_ ?_ ?_ ih'
    · simp only [explore_lr_bfs]
      rw [if_neg hv, if_neg hc']
    · intro x hx
      exact Or.inr (List.mem_append_left _ hx)
    · intro x hx
      rcases List.mem_cons.mp hx with h | h
      · exact Or.inl h
      · exact Or.inr (List.mem_append_left _ h)
    · intro c hcm
      exact Or.inl (List.mem_append_right lq ((mem_stroke_sort store _ c).mpr hcm))
    · intro c hcm
      exact Or.inr (List.mem_append_right rt ((mem_stroke_sort store _ c).mpr hcm))
  | case11 seen v lt hv ih =>
    refine exploreSpec_seen_step store wl seen (v :: lt) [] lt [] false true v hv
      ?_ ?_ ?_ ih
    · simp only [explore_lr_bfs]
      rw [if_pos hv]
    · intro x hx
      rcases List.mem_cons.mp hx with h | h
      · exact Or.inl h
      · exact Or.inr h
    · intro x hx
      exact absurd hx (List.not_mem_nil x)
  | case12 seen v lt hv n hc ih =>
    have hc' : (wlContains wl v && !rval_falsy (getNode store v).strokes) = true := hc
    have ih' : ExploreSpec store wl (v :: seen)
        (lt ++ stroke_sort store (getNode store v).descL)
        (stroke_sort store (getNode store v).descR) true := ih
    refine exploreSpec_new_step store wl seen (v :: lt) []
      (lt ++ stroke_sort store (getNode store v).descL)
      (stroke_sort store (getNode store v).descR) false true v hv hc'
      ?_ ?_ ?_ ?_ ?_ ih'
    · simp only [explore_lr_bfs]
      rw [if_neg hv, if_pos hc']
    · intro x hx
      rcases List.mem_cons.mp hx with h | h
      · exact Or.inl h
      · exact Or.inr (List.mem_append_left _ h)
    · intro x hx
      exact absurd hx (List.not_mem_nil x)
    · intro c hcm
      exact Or.inl (List.mem_append_right lt ((mem_stroke_sort store _ c).mpr hcm))
    · intro c hcm
      exact Or.inr ((mem_stroke_sort store _ c).mpr hcm)
  | case13 seen v lt hv n hc ih =>
    have hc' : ¬(wlContains wl v && !rval_falsy (getNode store v).strokes) = true := hc
    have ih' : ExploreSpec store wl (v :: seen)
        (lt ++ stroke_sort store (getNode store v).descL)
        (stroke_sort store (getNode store v).descR) true := ih
    refine exploreSpec_skip_step store wl seen (v :: lt) []
      (lt ++ stroke_sort store (getNode store v).descL)
      (stroke_sort store (getNode store v).descR) false true v hv hc'
      ?_ ?_ ?_ ?_ ?_ ih'
    · simp only [explore_lr_bfs]
      rw [if_neg hv, if_neg hc']
    · intro x hx
      rcases List.mem_cons.mp hx with h | h
      · exact Or.inl h
      · exact Or.inr (List.mem_append_left _ h)
    · intro x hx
      exact absurd hx (List.not_mem_nil x)
    · intro c hcm
      exact Or.inl (List.mem_append_right lt ((mem_stroke_sort store _ c).mpr hcm))
    · intro c hcm
      exact Or.inr ((mem_stroke_sort store _ c).mpr hcm)
  | case14 seen =>
    simp only [ExploreSpec]
    have heq : explore_lr_bfs store wl seen [] [] false = ([], seen) := by
      simp only [explore_lr_bfs]
    rw [heq]
    refine ⟨fun x hx => hx, ?_, ?_, ?_, List.nodup_nil, ?_, fun h => h, ?_⟩
    · intro x hx
      exact absurd hx (List.not_mem_nil x)
    · intro x hx
      exact absurd hx (List.not_mem_nil x)
    · intro y hy
      exact absurd hy (List.not_mem_nil y)
    · intro x hx
      exact Or.inl hx
    · intro x hx hxs
      exact absurd hx hxs

theorem enumStep_inv (store : Store) (wl : Option (List RVal))
    (acc : List RVal × List RVal) (r : RVal) (hinv : EnumInv store wl acc) :
    EnumInv store wl (enumStep store wl acc r) ∧
    (∀ x ∈ acc.2, x ∈ (enumStep store wl acc r).2) ∧
    r ∈ (enumStep store wl acc r).2 := by
  have hs := explore_lr_bfs_spec store wl acc.2 [r] [r] true
  simp only [ExploreSpec] at hs
  obtain ⟨E1, E2, E3, E4, E5, E6, E7, E8⟩ := hs
  obtain ⟨I1, I2, I3, I4, I5⟩ := hinv
  have hstep : enumStep store wl acc r
      = (acc.1 ++ (explore_lr_bfs store wl acc.2 [r] [r] true).1,
         (explore_lr_bfs store wl acc.2 [r] [r] true).2) := rfl
  rw [hstep]
  refine ⟨⟨?_, ?_, ?_, ?_, ?_⟩, ?_, ?_⟩
  · refine List.Nodup.append I1 E5 ?_
    intro a ha1 ha2
    exact (E4 a ha2).1 ((I2 a ha1).1)
  · intro y hy
    rcases List.mem_append.mp hy with h | h
    · obtain ⟨g1, g2, g3⟩ := I2 y h
      exact ⟨E1 y g1, g2, g3⟩
    · obtain ⟨g1, g2, g3, g4⟩ := E4 y h
      exact ⟨g2, g3, g4⟩
  · exact E7 I3
  · intro x hx
    rcases E6 x hx with h | h
    · obtain ⟨g1, g2⟩ := I4 x h
      exact ⟨fun c hc => E1 c (g1 c hc), fun c hc => E1 c (g2 c hc)⟩
    · exact h
  · intro x hx hw hf
    by_cases hxa : x ∈ acc.2
    · exact List.mem_append_left _ (I5 x hxa hw hf)
    · exact List.mem_append_right _ (E8 x hx hxa hw hf)
  · intro x hx
    exact E1 x hx
  · exact E2 r (List.mem_cons_self r [])

theorem enumFold_inv (store : Store) (wl : Option (List RVal)) :
    ∀ (roots : List RVal) (acc : List RVal × List RVal), EnumInv store wl acc →
      EnumInv store wl (roots.foldl (enumStep store wl) acc) ∧
      (∀ x ∈ acc.2, x ∈ (roots.foldl (enumStep store wl) acc).2) ∧
      (∀ r ∈ roots, r ∈ (roots.foldl (enumStep store wl) acc).2) := by
  intro roots
  induction roots with
  | nil =>
    intro acc hinv
    refine ⟨hinv, fun x hx => hx, ?_⟩
    intro r hr
    exact absurd hr (List.not_mem_nil r)
  | cons a t ih =>
    intro acc hinv
    obtain ⟨hS, hmono, hra⟩ := enumStep_inv store wl acc a hinv
    obtain ⟨h1, h2, h3⟩ := ih (enumStep store wl acc a) hS
    rw [List.foldl_cons]
    refine ⟨h1, ?_, ?_⟩
    · intro x hx
      exact h2 x (hmono x hx)
    · intro r hr
      rcases List.mem_cons.mp hr with h | h
      · rw [h]
        exact h2 a hra
      · exact h3 r h

theorem enumInv_nil (store : Store) (wl : Option (List RVal)) :
    EnumInv store wl ([], []) := by
  refine ⟨List.nodup_nil, ?_, List.nodup_nil, ?_, ?_⟩
  · intro y hy
    exact absurd hy (List.not_mem_nil y)
  · intro x hx
    exact absurd hx (List.not_mem_nil x)
  · intro x hx
    exact absurd hx (List.not_mem_nil x)

theorem enumerateSortedFull_inv (store : Store) (wl : Option (List RVal)) :
    EnumInv store wl (enumerateSortedFull store wl) ∧
    (∀ r ∈ find_roots store, r ∈ (enumerateSortedFull store wl).2) := by
  obtain ⟨h1, _, h3⟩ := enumFold_inv store wl
    (stroke_sort store (find_roots store)) ([], []) (enumInv_nil store wl)
  refine ⟨h1, ?_⟩
  intro r hr
  exact h3 r ((mem_stroke_sort store _ r).mpr hr)

theorem enum_reaches (store : Store) (wl : Option (List RVal)) (v : RVal)
    (hv : ReachesRoot store v) : v ∈ (enumerateSortedFull store wl).2 := by
  obtain ⟨hinv, hroots⟩ := enumerateSortedFull_inv store wl
  obtain ⟨_, _, _, hcl, _⟩ := hinv
  induction hv with
  | root r hr => exact hroots r hr
  | stepL u w hu hw ihu => exact (hcl u ihu).1 w hw
  | stepR u w hu hw ihu => exact (hcl u ihu).2 w hw

/-- C3 (corrected): for every built store, the whitelist-free
enumeration yields pairwise-distinct characters, never yields a special
(zero-stroke, falsy) node, visits every node at most once (the final
seen set is duplicate-free), yields only visited nodes, visits every
node reachable from some root through descendant edges, and yields
every visited non-special node.  The original claim's stronger "no node
of the store is left unvisited" is false: a node none of whose
ancestors is parentless (a rootless cycle) is never visited, see the
counterexample. -/
theorem enumerate_sorted_visits (store : Store) :
    (enumerate_sorted store none).Nodup ∧
    (∀ y ∈ enumerate_sorted store none,
      rval_falsy (getNode store y).strokes = false) ∧
    (enumerateSortedFull store none).2.Nodup ∧
    (∀ y ∈ enumerate_sorted store none, y ∈ (enumerateSortedFull store none).2) ∧
    (∀ v, ReachesRoot store v → v ∈ (enumerateSortedFull store none).2) ∧
    (∀ x ∈ (enumerateSortedFull store none).2,
      rval_falsy (getNode store x).strokes = false →
      x ∈ enumerate_sorted store none) := by
  obtain ⟨⟨I1, I2, I3, I4, I5⟩, hroots⟩ := enumerateSortedFull_inv store none
  refine ⟨I1, ?_, I3, ?_, ?_, ?_⟩
  · intro y hy
    exact (I2 y hy).2.2
  · intro y hy
    exact (I2 y hy).1
  · intro v hv
    exact enum_reaches store none v hv
  · intro x hx hf
    exact I5 x hx rfl hf

/-- C3 counterexample: in the two-node cyclic store (`a = b + b`,
`b = a + a`) there are no roots, so the enumeration terminates having
yielded nothing and visited nothing, although `a` is a key of the store
and is not special — the claim's "no node of the store is left
unvisited" fails. -/
theorem enumerate_sorted_cycle_counterexample :
    (lookupStore storeCyc (RVal.str "a")).isSome = true ∧
    rval_falsy (getNode storeCyc (RVal.str "a")).strokes = false ∧
    enumerate_sorted storeCyc none = [] ∧
    (enumerateSortedFull storeCyc none).2 = [] := by
  decide

/-- C3 witness: in the concrete `hao`/`ru` store the enumeration visits
`hao`, which is reachable from the root `nv` through a left-descendant
edge. -/
theorem enumerate_sorted_visits_witness :
    RVal.str "hao" ∈ (enumerateSortedFull storeHao none).2 :=
  (enumerate_sorted_visits storeHao).2.2.2.2.1 (RVal.str "hao")
    (ReachesRoot.stepL (RVal.str "nv") (RVal.str "hao")
      (ReachesRoot.root (RVal.str "nv") (by decide))
      (by decide))
